import Mathlib

/-!
Verification of the tm-librarian core against its natural-language
specification.  The Python sources are shallowly embedded: mutable objects
become explicit state records, exceptions become `Except`, machine reads of
the clock become an explicit `now` parameter, and the hardware ioctl writes
of the descriptor device are logged in a `writes` field so that theorems can
talk about which hardware programming was (or was not) issued.
-/

deriving instance DecidableEq for Except

namespace TmLibrarian

/-! ## Descriptor manager (src/descmgmt.py) -/

/-- Embedding of `_LZAinuse`: per-aperture statistics.  `pids` is the
Python dict ``pid -> [userVA, ...]`` as an insertion-ordered association
list, `mtime` the epoch timestamp of the last fault. -/
structure LZAinuse where
  baseLZA : Nat
  index : Nat
  pids : List (Nat × List Nat)
  mtime : Nat
deriving Repr, DecidableEq

/-- Embedding of the dict update in `_LZAinuse.update`: append `userVA` to
the bucket of `pid`, creating the bucket on a `KeyError`. -/
def pidsAppend : List (Nat × List Nat) → Nat → Nat → List (Nat × List Nat)
  | [], pid, va => [(pid, [va])]
  | (p, vas) :: rest, pid, va =>
      if p = pid then (p, vas ++ [va]) :: rest
      else (p, vas) :: pidsAppend rest pid va

/-- Embedding of `_LZAinuse.update`. -/
def LZAinuse.update (e : LZAinuse) (pid userVA now : Nat) : LZAinuse :=
  { e with pids := pidsAppend e.pids pid userVA, mtime := now }

/-- Embedding of `_LZAinuse.__init__`.  Python truthiness: the pid bucket and
the timestamp are only initialised when both `pid` and `userVA` are nonzero. -/
def LZAinuse.init (baseLZA index pid userVA now : Nat) : LZAinuse :=
  if pid ≠ 0 ∧ userVA ≠ 0 then
    { baseLZA := baseLZA, index := index, pids := [(pid, [userVA])], mtime := now }
  else
    { baseLZA := baseLZA, index := index, pids := [], mtime := 0 }

/-- Total number of mappings of an entry: `sum(len(v) for v in pids.values())`
exactly as computed inside `_LZAinuse.__lt__`. -/
def LZAinuse.mappings (e : LZAinuse) : Nat :=
  (e.pids.map (fun pv => pv.2.length)).sum

/-- Embedding of `_LZAinuse.__lt__`: true only when BOTH the mtime and the
total mapping count are strictly smaller (the source returns `False` as soon
as `self.mtime >= other.mtime`, and otherwise compares mapping counts). -/
def LZAinuse.lt (a b : LZAinuse) : Bool :=
  decide (a.mtime < b.mtime) && decide (a.mappings < b.mappings)

/-- CPython `min` over a nonempty sequence: fold keeping the current
minimum, replacing it whenever a later item compares `__lt__`-below it. -/
def pyMinFold (cur : LZAinuse) (l : List LZAinuse) : LZAinuse :=
  l.foldl (fun c x => if LZAinuse.lt x c then x else c) cur

/-- Eviction record returned by `DescMgmt.assign` when the table is full
(the `GenericObject(evictLZA=..., newLZA=...)` of the source). -/
structure Eviction where
  evictLZA : LZAinuse
  newLZA : LZAinuse
deriving Repr, DecidableEq

/-- Embedding of the `DescMgmt` instance state.  `writes` logs every
`desbk_set` ioctl issued as an `(index, value)` pair. -/
structure DescState where
  indices : List Nat
  available : List Nat
  descriptors : List (Nat × LZAinuse)
  writes : List (Nat × Nat)
deriving Repr, DecidableEq

/-- Embedding of `DescMgmt._consistent`. -/
def DescState.consistent (st : DescState) : Bool :=
  st.available.length + st.descriptors.length == st.indices.length

/-- Replace the value bound to key `k` in an insertion-ordered dict,
keeping its position (Python updates the `_LZAinuse` object in place;
keys are unique, so replacing the first occurrence is faithful). -/
def setEntry : List (Nat × LZAinuse) → Nat → LZAinuse → List (Nat × LZAinuse)
  | [], _, _ => []
  | (q, w) :: rest, k, v =>
      if q = k then (k, v) :: rest else (q, w) :: setEntry rest k v

/-- Embedding of `DescMgmt.assign`.  The three paths of the source: cache
hit on a bound LZA, binding a free aperture index (which programs the
hardware via `desbk_set`), and proposing an eviction when the table is full
(which deliberately does NOT reprogram the hardware). -/
def assign (st : DescState) (baseLZA pid userVA now : Nat) :
    Except String (DescState × Option Eviction) :=
  if baseLZA < 2 ^ 20 then
    if st.consistent then
      match st.descriptors.lookup baseLZA with
      | some e =>
          .ok ({ st with
                  descriptors := setEntry st.descriptors baseLZA
                    (e.update pid userVA now) }, none)
      | none =>
        match st.available with
        | i :: rest =>
            .ok ({ st with
                    writes := st.writes ++ [(i, (baseLZA <<< 33) + 1)],
                    descriptors := st.descriptors ++
                      [(baseLZA, LZAinuse.init baseLZA i pid userVA now)],
                    available := rest }, none)
        | [] =>
          match st.descriptors with
          | [] => .error "min() arg is an empty sequence"
          | d :: ds =>
              let victim := pyMinFold d.2 (ds.map Prod.snd)
              .ok (st, some { evictLZA := victim,
                              newLZA := LZAinuse.init baseLZA victim.index
                                pid userVA now })
    else .error "MEBST INCONSISTENT DESCRIPTORS"
  else .error "baseLZA out of range"

/-! Concrete descriptor states, reached by the `assign` chain spelled out in
the theorems that use them (two aperture slots, then LZAs 5 and 7 bound and
faulted on at explicit clock values). -/

def descSt0 : DescState := ⟨[0, 1], [0, 1], [], []⟩

def descSt1 : DescState :=
  ⟨[0, 1], [1], [(5, ⟨5, 0, [(1, [100])], 1⟩)], [(0, (5 <<< 33) + 1)]⟩

def descSt2 : DescState :=
  ⟨[0, 1], [], [(5, ⟨5, 0, [(1, [100])], 1⟩), (7, ⟨7, 1, [(1, [200])], 1⟩)],
    [(0, (5 <<< 33) + 1), (1, (7 <<< 33) + 1)]⟩

def descSt3 : DescState :=
  ⟨[0, 1], [],
    [(5, ⟨5, 0, [(1, [100])], 1⟩), (7, ⟨7, 1, [(1, [200, 201])], 1⟩)],
    [(0, (5 <<< 33) + 1), (1, (7 <<< 33) + 1)]⟩

def descSt4 : DescState :=
  ⟨[0, 1], [],
    [(5, ⟨5, 0, [(1, [100])], 1⟩), (7, ⟨7, 1, [(1, [200, 201, 202])], 1⟩)],
    [(0, (5 <<< 33) + 1), (1, (7 <<< 33) + 1)]⟩

def descSt5 : DescState :=
  ⟨[0, 1], [],
    [(5, ⟨5, 0, [(1, [100, 101])], 2⟩), (7, ⟨7, 1, [(1, [200, 201, 202])], 1⟩)],
    [(0, (5 <<< 33) + 1), (1, (7 <<< 33) + 1)]⟩

/-! ## Double-precision float model (for `LibrarianCommandEngine._nbooks`)

`_nbooks` computes `int(math.ceil(float(nbytes) / float(book_size)))` with
CPython floats, i.e. IEEE-754 binary64: conversion of an int and division
are correctly rounded to 53 significant bits, ties to even.  We model the
nonnegative values involved as unnormalised fractions of naturals (no gcd,
so every computation reduces in the kernel) and implement the rounding
exactly.  Overflow to infinity is not modelled: every value in this
development is far below `2.0 ** 1024`, and a zero `book_size` (on which
Python would raise `ZeroDivisionError`) is excluded by hypothesis. -/

/-- Fuel-based floor of the base-2 logarithm (structural recursion, so the
kernel can evaluate it on large literals). -/
def log2fuel : Nat → Nat → Nat
  | 0, _ => 0
  | fuel + 1, n => if 2 ≤ n then log2fuel fuel (n / 2) + 1 else 0

/-- Floor of the base-2 logarithm of a positive natural. -/
def log2floor (n : Nat) : Nat := log2fuel n n

/-- Nonnegative rational value as an unnormalised fraction of naturals.
The denominator is positive in every value this development builds. -/
structure PosFrac where
  num : Nat
  den : Nat
deriving Repr, DecidableEq

/-- Multiply a fraction by an integer power of two. -/
def mulPow2 (q : PosFrac) (e : Int) : PosFrac :=
  if 0 ≤ e then ⟨q.num * 2 ^ e.toNat, q.den⟩ else ⟨q.num, q.den * 2 ^ (-e).toNat⟩

/-- Round a nonnegative fraction to the nearest IEEE-754 binary64 value
(53 significant bits, ties to even): normalise the value into
`[2 ^ 52, 2 ^ 53)` by a power of two, round that to an integer with ties to
even, and scale back. -/
def rnd53 (q : PosFrac) : PosFrac :=
  if q.num = 0 then ⟨0, 1⟩
  else
    let e0 : Int := (log2floor q.num : Int) - (log2floor q.den : Int) - 52
    let s0 := mulPow2 q (-e0)
    let e : Int := if s0.num < 2 ^ 52 * s0.den then e0 - 1 else e0
    let r := mulPow2 q (-e)
    let fl : Nat := r.num / r.den
    let rem : Nat := r.num % r.den
    let m : Nat :=
      if 2 * rem < r.den then fl
      else if r.den < 2 * rem then fl + 1
      else if fl % 2 = 0 then fl else fl + 1
    mulPow2 ⟨m, 1⟩ e

/-- CPython `float(n)` for a natural `n`. -/
def floatOfNat (n : Nat) : PosFrac := rnd53 ⟨n, 1⟩

/-- IEEE-754 correctly rounded division of two nonnegative doubles. -/
def fdiv (x y : PosFrac) : PosFrac := rnd53 ⟨x.num * y.den, x.den * y.num⟩

/-- Mathematical ceiling of a fraction with positive denominator, as used
by `math.ceil` on the (exactly known) float value. -/
def ceilPos (q : PosFrac) : Nat := (q.num + q.den - 1) / q.den

/-- Embedding of `LibrarianCommandEngine._nbooks`:
`int(math.ceil(float(nbytes) / float(book_size)))`. -/
def nbooks (book_size nbytes : Nat) : Nat :=
  ceilPos (fdiv (floatOfNat nbytes) (floatOfNat book_size))

/-! ## Librarian command engine data model (src/engine.py)

The metadata store (`backend_sqlite3`, not part of the core sources) is
modelled from its contract in the specification: row collections with
filtered reads, in-place row updates, `get_bos_by_shelf_id` returning the
rows of a shelf ordered by `seq_num`, and `get_book_by_node` returning up
to `limit` rows with the requested node and allocation state. -/

/-- Book allocation states (`TMBook.ALLOC_*`). -/
inductive Alloc
  | FREE
  | INUSE
  | ZOMBIE
deriving Repr, DecidableEq

/-- The cycle of legal allocation transitions:
FREE to IN_USE to ZOMBIE and back to FREE. -/
def allocNext : Alloc → Alloc
  | .FREE => .INUSE
  | .INUSE => .ZOMBIE
  | .ZOMBIE => .FREE

/-- Book row: id, owning node, interleave group (1:1 with the node), state. -/
structure TMBook where
  id : Nat
  node_id : Nat
  intlv_group : Nat
  allocated : Alloc
deriving Repr, DecidableEq

/-- Shelf row. -/
structure TMShelf where
  id : Nat
  name : String
  size_bytes : Nat
  book_count : Nat
deriving Repr, DecidableEq

/-- Book-on-shelf row. -/
structure TMBos where
  shelf_id : Nat
  book_id : Nat
  seq_num : Nat
deriving Repr, DecidableEq

/-- The metadata store state. -/
structure DB where
  book_size_bytes : Nat
  books : List TMBook
  shelves : List TMShelf
  bos : List TMBos
  xattrs : List ((Nat × String) × String)
deriving Repr, DecidableEq

/-- Errno values used by the engine (Linux numbering). -/
def ENOENT : Nat := 2

def EBADF : Nat := 9

def EBUSY : Nat := 16

def EINVAL : Nat := 22

def ENOSPC : Nat := 28

def ENOSYS : Nat := 38

def EBADFD : Nat := 77

def ESTALE : Nat := 116

def EUCLEAN : Nat := 117

def EREMOTEIO : Nat := 121

/-- Stable insertion into a list sorted by a natural-number key. -/
def insertSortedBy {α : Type} (key : α → Nat) (x : α) : List α → List α
  | [] => [x]
  | y :: ys => if key x < key y then x :: y :: ys else y :: insertSortedBy key x ys

/-- Stable insertion sort by a natural-number key (the ORDER BY of the
store's row reads). -/
def sortBy {α : Type} (key : α → Nat) : List α → List α
  | [] => []
  | x :: xs => insertSortedBy key x (sortBy key xs)

/-- Modelled from the spec: backend store read `get_bos_by_shelf_id`
(outside src/), the BOS rows of a shelf ordered by `seq_num`. -/
def get_bos_by_shelf_id (db : DB) (sid : Nat) : List TMBos :=
  sortBy TMBos.seq_num (db.bos.filter (fun r => decide (r.shelf_id = sid)))

/-- Modelled from the spec: backend store read
`get_book_by_node(node_id, allocated, limit)` (outside src/), up to
`limit` books on the node in the given allocation state. -/
def get_book_by_node (db : DB) (node : Nat) (alloc : Alloc) (limit : Nat) :
    List TMBook :=
  (db.books.filter (fun b => decide (b.node_id = node ∧ b.allocated = alloc))).take
    limit

/-- Modelled from the spec: backend store read `get_book_by_id` (outside
src/) followed by projection to the allocation state. -/
def bookAlloc (db : DB) (id : Nat) : Option Alloc :=
  (db.books.find? (fun b => decide (b.id = id))).map TMBook.allocated

/-- Modelled from the spec: backend store write `modify_book` (outside
src/) restricted to the `allocated` field. -/
def modifyBookAlloc (books : List TMBook) (id : Nat) (a : Alloc) : List TMBook :=
  books.map (fun b => if b.id = id then { b with allocated := a } else b)

/-- Modelled from the spec: backend store write `modify_shelf` (outside
src/), replacing the row with the same id. -/
def modifyShelf (db : DB) (sh : TMShelf) : DB :=
  { db with shelves := db.shelves.map (fun s => if s.id = sh.id then sh else s) }

/-- Modelled from the spec: backend store read `get_xattr` (outside
src/). -/
def get_xattr (db : DB) (sid : Nat) (name : String) : Option String :=
  (db.xattrs.find? (fun p => decide (p.1.1 = sid ∧ p.1.2 = name))).map Prod.snd

/-- Embedding of `LibrarianCommandEngine._set_book_alloc`: the only legal
transitions are FREE to IN_USE, IN_USE to ZOMBIE and ZOMBIE to FREE; any
other request fails with EUCLEAN before any mutation.  A failure returns
the store as it stands (the transaction holds no write from this call). -/
def set_book_alloc (db : DB) (book_id : Nat) (newalloc : Alloc) :
    Except (Nat × DB) (DB × TMBook) :=
  match db.books.find? (fun b => decide (b.id = book_id)) with
  | none => .error (ENOENT, db)
  | some book =>
      let legal : Bool :=
        match newalloc, book.allocated with
        | .INUSE, .FREE => true
        | .ZOMBIE, .INUSE => true
        | .FREE, .ZOMBIE => true
        | _, _ => false
      if legal then
        .ok ({ db with books := modifyBookAlloc db.books book_id newalloc },
             { book with allocated := newalloc })
      else .error (EUCLEAN, db)

/-- Embedding of `cmd_get_shelf`: resolve by name (and id when `matchId`),
then check the size/count law through `_nbooks`; ENOENT or EBADF on
failure. -/
def cmd_get_shelf (db : DB) (name : String) (sid : Nat) (matchId : Bool) :
    Except (Nat × DB) TMShelf :=
  match db.shelves.find?
      (fun s => decide (s.name = name ∧ (matchId = false ∨ s.id = sid))) with
  | none => .error (ENOENT, db)
  | some shelf =>
      if nbooks db.book_size_bytes shelf.size_bytes = shelf.book_count
      then .ok shelf
      else .error (EBADF, db)

/-- Embedding of `_list_shelf_books`: requires an open shelf (truthy id),
then checks row count and the size/count law (EREMOTEIO). -/
def list_shelf_books (db : DB) (shelf : TMShelf) :
    Except (Nat × DB) (List TMBos) :=
  if shelf.id = 0 then .error (EBADF, db)
  else
    let bos := get_bos_by_shelf_id db shelf.id
    if bos.length = shelf.book_count then
      if nbooks db.book_size_bytes shelf.size_bytes = shelf.book_count
      then .ok bos
      else .error ( EREMOTEIO, db)
    else .error ( EREMOTEIO, db)

/-- Python `set(seqs) == set(range(1, book_count + 1))`. -/
def seqSetEq (seqs : List Nat) (n : Nat) : Bool :=
  seqs.all (fun s => decide (s ∈ List.range' 1 n)) &&
    (List.range' 1 n).all (fun s => decide (s ∈ seqs))

/-- The BOS rows created by the grow loop of `cmd_resize_shelf`: one row
per allocated book, with consecutive `seq_num` starting just above the
previous count. -/
def newRows (sid : Nat) : Nat → List TMBook → List TMBos
  | _, [] => []
  | seq, b :: rest => ⟨sid, b.id, seq + 1⟩ :: newRows sid (seq + 1) rest

/-- Grow loop of `cmd_resize_shelf`: for each book move FREE to IN_USE and
append a BOS row with the next `seq_num`. -/
def growLoop : DB → Nat → Nat → List TMBook → Except (Nat × DB) DB
  | db, _, _, [] => .ok db
  | db, sid, seq, book :: rest =>
      match set_book_alloc db book.id .INUSE with
      | .error e => .error e
      | .ok (db2, _) =>
          growLoop { db2 with bos := db2.bos ++ [⟨sid, book.id, seq + 1⟩] }
            sid (seq + 1) rest

/-- Shrink loop of `cmd_resize_shelf`: delete each popped BOS row and move
its book IN_USE to ZOMBIE. -/
def shrinkLoop : DB → List TMBos → Except (Nat × DB) DB
  | db, [] => .ok db
  | db, r :: rest =>
      let db2 := { db with bos := db.bos.erase r }
      match set_book_alloc db2 r.book_id .ZOMBIE with
      | .error e => .error e
      | .ok (db3, _) => shrinkLoop db3 rest

/-- Embedding of `cmd_resize_shelf`.  Books for growth come from
`db.get_book_by_node(context.node_id, ALLOC_FREE, books_needed)` — the
engine does NOT consult the shelf's allocation policy.  Shrink pops BOS
rows from the tail of the seq-ordered list. -/
def cmd_resize_shelf (db : DB) (name : String) (sid : Nat)
    (new_size_bytes : Nat) (node_id : Nat) :
    Except (Nat × DB) (DB × TMShelf) :=
  match cmd_get_shelf db name sid true with
  | .error e => .error e
  | .ok shelf =>
    match list_shelf_books db shelf with
    | .error e => .error e
    | .ok bos =>
      if bos.length ≠ shelf.book_count then .error ( EREMOTEIO, db)
      else
        let new_book_count := nbooks db.book_size_bytes new_size_bytes
        if bos ≠ [] ∧ seqSetEq (bos.map TMBos.seq_num) shelf.book_count = false
        then .error (EBADFD, db)
        else if new_size_bytes = shelf.size_bytes then .ok (db, shelf)
        else
          let shelf1 := { shelf with size_bytes := new_size_bytes }
          if new_book_count = shelf.book_count then
            .ok (modifyShelf db shelf1, shelf1)
          else if shelf.book_count < new_book_count then
            let nneed := new_book_count - shelf.book_count
            let freebooks := get_book_by_node db node_id .FREE nneed
            if freebooks.length ≠ nneed then .error (ENOSPC, db)
            else
              match growLoop db shelf.id shelf.book_count freebooks with
              | .error e => .error e
              | .ok db2 =>
                  let shelf2 := { shelf1 with book_count := new_book_count }
                  .ok (modifyShelf db2 shelf2, shelf2)
          else
            let k := shelf.book_count - new_book_count
            if bos.length < k then .error ( EREMOTEIO, db)
            else
              match shrinkLoop db (bos.reverse.take k) with
              | .error e => .error e
              | .ok db2 =>
                  let shelf2 := { shelf1 with book_count := new_book_count }
                  .ok (modifyShelf db2 shelf2, shelf2)

/-! ## Book allocation policies (src/book_policy.py) -/

/-- The policy enumeration `BookPolicy._policies`, default first. -/
def policyList : List String :=
  ["RandomBooks", "LocalNode", "Nearest", "LZAascending", "LZAdescending"]

/-- Modelled from the spec: backend store read
`get_books_by_intlv_group(limit, IGs, exclude, ascending)` (outside
src/), up to `limit` FREE books whose interleave group is in — or, when
`exclude`, not in — the given set, in LZA order by book id. -/
def get_books_by_intlv_group (db : DB) (limit : Nat) (IGs : List Nat)
    (exclude : Bool) (ascending : Bool) : List TMBook :=
  let cands := db.books.filter (fun b =>
    decide (b.allocated = .FREE ∧
      (if exclude then ¬ b.intlv_group ∈ IGs else b.intlv_group ∈ IGs)))
  let sorted := sortBy TMBook.id cands
  (if ascending then sorted else sorted.reverse).take limit

/-- Embedding of `BookPolicy._IGs2books`.  `shuf` is the permutation drawn
by `random.shuffle`, passed in explicitly. -/
def IGs2books (db : DB) (shuf : List TMBook → List TMBook) (needed : Nat)
    (IGs : List Nat) (exclude doShuffle : Bool) : List TMBook :=
  if doShuffle then
    (shuf (get_books_by_intlv_group db 999999 IGs exclude true)).take needed
  else (get_books_by_intlv_group db needed IGs exclude true).take needed

/-- Embedding of `BookPolicy._policy_Nearest` (and `_policy_LocalNode`,
which is the `localOnly` case).  The enclosure of a node is modelled from
the spec since `frdnode.py` is outside the core sources:
`enc = ((node_id - 1) / 10) + 1`, nodes `(enc-1)*10+1 .. (enc-1)*10+10`. -/
def policy_Nearest (db : DB) (shuf : List TMBook → List TMBook)
    (node numNodes needed : Nat) (localOnly : Bool) : List TMBook :=
  let localbooks := IGs2books db shuf needed [node - 1] false false
  if localOnly then localbooks
  else
    let needed1 := needed - localbooks.length
    if needed1 = 0 then localbooks
    else
      let enc := (node - 1) / 10 + 1
      let lo := (enc - 1) * 10 + 1
      let encNodes := List.range' lo 10
      let others := encNodes.filter (fun n2 => decide (n2 ≠ node))
      let encbooks := IGs2books db shuf needed1
        (others.map (fun n2 => n2 - 1)) false true
      let needed2 := needed1 - encbooks.length
      if needed2 = 0 then localbooks ++ encbooks
      else
        let allNodes := List.range' 1 numNodes
        let nonenc := allNodes.filter (fun n2 => decide (¬ n2 ∈ encNodes))
        let nonencbooks := IGs2books db shuf needed2
          (nonenc.map (fun n2 => n2 - 1)) false true
        localbooks ++ encbooks ++ nonencbooks

/-- Policy dispatch of `BookPolicy.__call__` on the shelf's
`user.LFS.AllocationPolicy` xattr. -/
def policyBooks (db : DB) (shuf : List TMBook → List TMBook)
    (shelf : TMShelf) (node numNodes needed : Nat) :
    Except Nat (List TMBook) :=
  match get_xattr db shelf.id "user.LFS.AllocationPolicy" with
  | none => .error EINVAL
  | some nm =>
    if nm = "LocalNode" then .ok (policy_Nearest db shuf node numNodes needed true)
    else if nm = "Nearest" then
      .ok (policy_Nearest db shuf node numNodes needed false)
    else if nm = "RandomBooks" then
      .ok (IGs2books db shuf needed [99999] true true)
    else if nm = "LZAascending" then
      .ok (get_books_by_intlv_group db needed [999999] true true)
    else if nm = "LZAdescending" then
      .ok (get_books_by_intlv_group db needed [999999] true false)
    else .error EINVAL

/-! ## Xattr assistance (BookPolicy.xattr_assist, src/book_policy.py) -/

/-- Python `str.split` on a dot, reimplemented over the character list. -/
def splitDotsAux : List Char → List Char → List String
  | [], acc => [String.mk acc.reverse]
  | c :: rest, acc =>
      if c = '.' then String.mk acc.reverse :: splitDotsAux rest []
      else splitDotsAux rest (c :: acc)

/-- Python `xattr.split(chr(46))`. -/
def splitDots (s : String) : List String := splitDotsAux s.data []

/-- Embedding of `BookPolicy.xattr_assist`.  `igsOfShelf` stands for the
per-book interleave groups the Interleave branch reads from the store; a
Python `IndexError` on `elems[1]` surfaces as the pre-set EINVAL. -/
def xattr_assist (igsOfShelf : List Nat) (xattr : String)
    (value : Option String) (setting removing : Bool) :
    Except Nat (String × Option String) :=
  if setting ∧ value = none then .error EINVAL
  else
    let elems := splitDots xattr
    match elems.get? 1 with
    | none => .error EINVAL
    | some e1 =>
      if e1 ≠ "LFS" then .ok (xattr, value)
      else if elems.length ≠ 3 then .error EINVAL
      else if removing then .error EINVAL
      else
        match elems.get? 2 with
        | none => .error EINVAL
        | some e2 =>
          if e2 = "AllocationPolicy" then
            if setting then
              match value with
              | some v =>
                  if v ∈ policyList then .ok (xattr, value) else .error EINVAL
              | none => .error EINVAL
            else .ok (xattr, value)
          else if e2 = "AllocationPolicyList" then
            if setting then .error EINVAL
            else .ok (xattr, some (String.intercalate "," policyList))
          else if e2 = "Interleave" then
            if setting then .error EINVAL
            else .ok (xattr, some (String.mk (igsOfShelf.map Char.ofNat)))
          else .error EINVAL

/-! ## Shadow translator (shadow_support, src/lfs_shadow.py)

`books_per_IG` reaches the shadow layer as a JSON object whose keys are
the DECIMAL STRINGS of the interleave group numbers; `__init__` iterates
`sorted(lfs_globals[...].keys())`, i.e. the keys in lexicographic string
order.  We model a key by its list of decimal digits, which compares
exactly like the Python string of ASCII digits. -/

/-- Decimal digits of a natural, most significant first (fuel-based). -/
def digitsFuel : Nat → Nat → List Nat
  | 0, _ => []
  | fuel + 1, n => if n < 10 then [n] else digitsFuel fuel (n / 10) ++ [n % 10]

/-- Decimal digit list of a natural (the Python string key). -/
def decDigits (n : Nat) : List Nat := digitsFuel (n + 1) n

/-- Lexicographic order on digit lists — exactly Python string comparison
of the corresponding decimal strings. -/
def lexLt : List Nat → List Nat → Bool
  | [], [] => false
  | [], _ :: _ => true
  | _ :: _, [] => false
  | a :: as, b :: bs => if a < b then true else if b < a then false else lexLt as bs

/-- String-key comparison of two interleave group numbers. -/
def strKeyLt (a b : Nat) : Bool := lexLt (decDigits a) (decDigits b)

/-- Stable insertion for the string-key sort. -/
def insertByStrKey (x : Nat × Nat) : List (Nat × Nat) → List (Nat × Nat)
  | [] => [x]
  | y :: ys => if strKeyLt x.1 y.1 then x :: y :: ys else y :: insertByStrKey x ys

/-- Python `sorted(books_per_IG.keys())`: sort the (IG, count) pairs by the
decimal-string key. -/
def sortByStrKey : List (Nat × Nat) → List (Nat × Nat)
  | [] => []
  | x :: xs => insertByStrKey x (sortByStrKey xs)

/-- The flat-space base offsets assigned by the `__init__` loop: walk the
string-sorted pairs accumulating `books * book_size`. -/
def igstartGo : List (Nat × Nat) → Nat → Nat → List (Nat × Nat)
  | [], _, _ => []
  | (ig, books) :: rest, offset, bs =>
      (ig, offset) :: igstartGo rest (offset + books * bs) bs

/-- Shadow translator configuration: the book size and the
`books_per_IG` table as (IG number, book count) pairs. -/
structure ShadowCfg where
  book_size : Nat
  bpIG : List (Nat × Nat)
deriving Repr, DecidableEq

/-- The `_igstart` dict: base offset of an interleave group, `none` when
the IG is not in the table (Python `KeyError`). -/
def igstart (cfg : ShadowCfg) (ig : Nat) : Option Nat :=
  (igstartGo (sortByStrKey cfg.bpIG) 0 cfg.book_size).lookup ig

/-- A cached BOS entry as the shadow layer sees it (a dict with the
`intlv_group` and `book_num` fields). -/
structure ShadowBosEntry where
  intlv_group : Nat
  book_num : Nat
deriving Repr, DecidableEq

/-- Embedding of `shadow_support.shadow_offset`: `some (-1)` is the EOF
return, `none` is the uncaught `KeyError` on a foreign interleave group. -/
def shadow_offset (cfg : ShadowCfg) (bos : List ShadowBosEntry) (off : Nat) :
    Option Int :=
  match bos.get? (off / cfg.book_size) with
  | none => some (-1)
  | some book =>
      match igstart cfg book.intlv_group with
      | none => none
      | some igs =>
          some ((igs : Int) + book.book_num * cfg.book_size
            + off % cfg.book_size)

/-- The base-offset formula the specification states: sum of
`books_per_IG[j] * book_size` over the groups j whose DECIMAL STRING
precedes that of `ig` (the amended reading of the claim). -/
def igstartLex (cfg : ShadowCfg) (ig : Nat) : Nat :=
  ((cfg.bpIG.filter (fun p => strKeyLt p.1 ig)).map
    (fun p => p.2 * cfg.book_size)).sum

/-- The base-offset formula of the claim as written: sum over the groups
NUMERICALLY below `ig`. -/
def igstartNumeric (cfg : ShadowCfg) (ig : Nat) : Nat :=
  ((cfg.bpIG.filter (fun p => decide (p.1 < ig))).map
    (fun p => p.2 * cfg.book_size)).sum

/-! ## Concrete stores for witnesses and counterexamples -/

/-- A shadow configuration with eleven interleave groups 0..10 of one
book each and book_size 1; the lexicographic order of the decimal string
keys is 0, 1, 10, 2, 3, ..., 9. -/
def cfg11 : ShadowCfg :=
  ⟨1, [(0, 1), (1, 1), (2, 1), (3, 1), (4, 1), (5, 1), (6, 1), (7, 1),
       (8, 1), (9, 1), (10, 1)]⟩

/-- A store with book size 4, one empty shelf `s` (id 1) whose allocation
policy is `LZAascending`, and three FREE books on node 2 (interleave group
1); the caller making the requests sits on node 1, which has no books. -/
def dbRack : DB :=
  ⟨4,
   [⟨11, 2, 1, .FREE⟩, ⟨12, 2, 1, .FREE⟩, ⟨13, 2, 1, .FREE⟩],
   [⟨1, "s", 0, 0⟩],
   [],
   [((1, "user.LFS.AllocationPolicy"), "LZAascending")]⟩

/-- The store after growing shelf `s` of `dbRack` to three books from
node 2. -/
def dbRackGrown : DB :=
  ⟨4,
   [⟨11, 2, 1, .INUSE⟩, ⟨12, 2, 1, .INUSE⟩, ⟨13, 2, 1, .INUSE⟩],
   [⟨1, "s", 12, 3⟩],
   [⟨1, 11, 1⟩, ⟨1, 12, 2⟩, ⟨1, 13, 3⟩],
   [((1, "user.LFS.AllocationPolicy"), "LZAascending")]⟩

/-- The first pick of `_policy_Nearest`: the local books, exactly the
`_policy_LocalNode` call in the source. -/
def nearestLocalBooks (db : DB) (shuf : List TMBook → List TMBook)
    (node needed : Nat) : List TMBook :=
  IGs2books db shuf needed [node - 1] false false

/-- The node numbers of the caller's enclosure,
`(enc-1)*10+1 .. (enc-1)*10+10` with `enc = (node-1)/10 + 1`. -/
def nearestEncNodes (node : Nat) : List Nat :=
  List.range' (((node - 1) / 10 + 1 - 1) * 10 + 1) 10

/-- The second pick of `_policy_Nearest`: books from the other nodes of
the caller's enclosure. -/
def nearestEncBooks (db : DB) (shuf : List TMBook → List TMBook)
    (node needed1 : Nat) : List TMBook :=
  IGs2books db shuf needed1
    (((nearestEncNodes node).filter (fun n2 => decide (n2 ≠ node))).map
      (fun n2 => n2 - 1)) false true

/-- The third pick of `_policy_Nearest`: books from outside the caller's
enclosure. -/
def nearestNonencBooks (db : DB) (shuf : List TMBook → List TMBook)
    (node numNodes needed2 : Nat) : List TMBook :=
  IGs2books db shuf needed2
    (((List.range' 1 numNodes).filter
      (fun n2 => decide (¬ n2 ∈ nearestEncNodes node))).map
      (fun n2 => n2 - 1)) false true

/-- A store for the Nearest policy: node 2 (enclosure 1) holds two FREE
books and one IN_USE book, node 1 of the same enclosure holds one FREE
book, node 11 (enclosure 2) holds one FREE book. -/
def dbNear : DB :=
  ⟨4,
   [⟨21, 2, 1, .FREE⟩, ⟨22, 2, 1, .FREE⟩, ⟨23, 2, 1, .INUSE⟩,
    ⟨11, 1, 0, .FREE⟩, ⟨111, 11, 10, .FREE⟩],
   [],
   [],
   []⟩

/-! ### Basic lemmas about the descriptor structures -/

theorem setEntry_length : ∀ (ds : List (Nat × LZAinuse)) (k : Nat)
    (v : LZAinuse), (setEntry ds k v).length = ds.length
  | [], _, _ => rfl
  | (q, w) :: rest, k, v => by
      by_cases hq : q = k
      · simp [setEntry, hq]
      · simp [setEntry, hq, setEntry_length rest k v]

theorem setEntry_keys : ∀ (ds : List (Nat × LZAinuse)) (k : Nat)
    (v : LZAinuse), (setEntry ds k v).map Prod.fst = ds.map Prod.fst
  | [], _, _ => rfl
  | (q, w) :: rest, k, v => by
      by_cases hq : q = k
      · simp [setEntry, hq]
      · simp [setEntry, hq, setEntry_keys rest k v]

theorem setEntry_lookup_self : ∀ (ds : List (Nat × LZAinuse)) (k : Nat)
    (v e : LZAinuse), ds.lookup k = some e →
    (setEntry ds k v).lookup k = some v := by
  intro ds
  induction ds with
  | nil => intro k v e h; simp [List.lookup] at h
  | cons p rest ih =>
      intro k v e h
      obtain ⟨q, w⟩ := p
      by_cases hq : q = k
      · subst hq
        simp [setEntry, List.lookup]
      · have hne : (k == q) = false := by
          simp only [beq_eq_false_iff_ne, ne_eq]
          exact fun hk => hq hk.symm
        simp only [List.lookup, hne] at h
        simp only [setEntry, if_neg hq, List.lookup, hne]
        exact ih k v e h

theorem setEntry_lookup_other : ∀ (ds : List (Nat × LZAinuse)) (k j : Nat)
    (v : LZAinuse), j ≠ k → (setEntry ds k v).lookup j = ds.lookup j := by
  intro ds
  induction ds with
  | nil => intro k j v hj; rfl
  | cons p rest ih =>
      intro k j v hj
      obtain ⟨q, w⟩ := p
      by_cases hq : q = k
      · subst hq
        have hne : (j == q) = false := by
          simp only [beq_eq_false_iff_ne, ne_eq]
          exact hj
        simp [setEntry, List.lookup, hne]
      · simp only [setEntry, if_neg hq, List.lookup]
        cases hjq : j == q with
        | true => rfl
        | false => exact ih k j v hj

theorem pidsAppend_lookup_self (l : List (Nat × List Nat)) (pid va : Nat) :
    (pidsAppend l pid va).lookup pid = some ((l.lookup pid).getD [] ++ [va]) := by
  induction l with
  | nil => simp [pidsAppend, List.lookup]
  | cons p rest ih =>
      by_cases hp : p.1 = pid
      · cases p with
        | mk q vas =>
            simp only at hp
            subst hp
            simp [pidsAppend, List.lookup]
      · cases p with
        | mk q vas =>
            simp only at hp
            have hne : (pid == q) = false := by
              simp [beq_iff_eq]
              exact fun hk => hp hk.symm
            simp [pidsAppend, hp, List.lookup, hne, ih]

theorem pidsAppend_lookup_other (l : List (Nat × List Nat)) (pid va q : Nat)
    (hq : q ≠ pid) :
    (pidsAppend l pid va).lookup q = l.lookup q := by
  induction l with
  | nil =>
      have hne : (q == pid) = false := by simp [beq_iff_eq, hq]
      simp [pidsAppend, List.lookup, hne]
  | cons p rest ih =>
      by_cases hp : p.1 = pid
      · cases p with
        | mk k vas =>
            simp only at hp
            subst hp
            have hne : (q == k) = false := by simp [beq_iff_eq, hq]
            simp [pidsAppend, List.lookup, hne]
      · cases p with
        | mk k vas =>
            simp only at hp
            simp only [pidsAppend, if_neg hp, List.lookup]
            cases hqk : q == k with
            | true => rfl
            | false => exact ih

/-! ### C6: descriptor counting invariant -/

/-- C6: after every successful `assign` (cache hit, free-index binding, or
eviction proposal) the descriptor manager satisfies
`available.length + descriptors.length = indices.length`. -/
theorem C6_descriptor_invariant (st st' : DescState) (b p v now : Nat)
    (r : Option Eviction) (h : assign st b p v now = .ok (st', r)) :
    st'.available.length + st'.descriptors.length = st'.indices.length := by
  unfold assign at h
  split at h
  case isFalse => exact absurd h (by simp)
  split at h
  case isFalse => exact absurd h (by simp)
  case isTrue h20 hcons =>
  have hc : st.available.length + st.descriptors.length = st.indices.length := by
    simpa [DescState.consistent] using hcons
  cases hl : st.descriptors.lookup b with
  | some e =>
      rw [hl] at h
      cases h
      simpa [setEntry_length] using hc
  | none =>
      rw [hl] at h
      cases hav : st.available with
      | cons i rest =>
          rw [hav] at h
          cases h
          rw [hav] at hc
          simp only [List.length_cons] at hc
          simp only [List.length_append, List.length_cons, List.length_nil]
          omega
      | nil =>
          rw [hav] at h
          cases hd : st.descriptors with
          | nil => rw [hd] at h; exact absurd h (by simp)
          | cons d ds =>
              rw [hd] at h
              cases h
              exact hc

/-- Witness for C6 at a concrete input: binding LZA 5 on a fresh two-slot
table preserves the counting invariant. -/
theorem C6_descriptor_invariant_witness :
    descSt1.available.length + descSt1.descriptors.length =
      descSt1.indices.length :=
  C6_descriptor_invariant descSt0 descSt1 5 1 100 1 none rfl

/-! ### C10: frame effect of a cache hit in assign -/

/-- C10: when `assign` is called on an already-bound baseLZA, the only state
modified is that entry itself: `userVA` is appended to its per-pid fault
list, its mtime becomes the current time, its aperture index is kept; the
available queue, the set of bound LZAs, every other entry, and the log of
hardware descriptor writes are unchanged, and no eviction is returned. -/
theorem C10_cache_hit_frame (st : DescState) (b p v now : Nat) (e : LZAinuse)
    (h20 : b < 2 ^ 20) (hcons : st.consistent = true)
    (hb : st.descriptors.lookup b = some e) :
    ∃ st' : DescState,
      assign st b p v now = .ok (st', none)
      ∧ st'.available = st.available
      ∧ st'.writes = st.writes
      ∧ st'.indices = st.indices
      ∧ st'.descriptors.map Prod.fst = st.descriptors.map Prod.fst
      ∧ (∀ k, k ≠ b → st'.descriptors.lookup k = st.descriptors.lookup k)
      ∧ st'.descriptors.lookup b = some (e.update p v now)
      ∧ (e.update p v now).index = e.index
      ∧ (e.update p v now).baseLZA = e.baseLZA
      ∧ (e.update p v now).mtime = now
      ∧ (e.update p v now).pids.lookup p =
          some (((e.pids.lookup p).getD []) ++ [v])
      ∧ (∀ q, q ≠ p → (e.update p v now).pids.lookup q = e.pids.lookup q) := by
  refine ⟨{ st with descriptors := setEntry st.descriptors b (e.update p v now) },
    ?_, rfl, rfl, rfl, setEntry_keys _ _ _,
    fun k hk => setEntry_lookup_other _ _ _ _ hk,
    setEntry_lookup_self _ _ _ _ hb, rfl, rfl, rfl,
    pidsAppend_lookup_self _ _ _,
    fun q hq => pidsAppend_lookup_other _ _ _ _ hq⟩
  unfold assign
  rw [if_pos h20, if_pos hcons, hb]

/-- Witness for C10: a second fault on bound LZA 5 by pid 1 at address 101
and time 2, starting from the two-entry full table. -/
theorem C10_cache_hit_frame_witness :
    ∃ st' : DescState,
      assign descSt4 5 1 101 2 = .ok (st', none)
      ∧ st'.available = descSt4.available
      ∧ st'.writes = descSt4.writes
      ∧ st'.indices = descSt4.indices
      ∧ st'.descriptors.map Prod.fst = descSt4.descriptors.map Prod.fst
      ∧ (∀ k, k ≠ 5 → st'.descriptors.lookup k = descSt4.descriptors.lookup k)
      ∧ st'.descriptors.lookup 5 =
          some ((⟨5, 0, [(1, [100])], 1⟩ : LZAinuse).update 1 101 2)
      ∧ ((⟨5, 0, [(1, [100])], 1⟩ : LZAinuse).update 1 101 2).index =
          (⟨5, 0, [(1, [100])], 1⟩ : LZAinuse).index
      ∧ ((⟨5, 0, [(1, [100])], 1⟩ : LZAinuse).update 1 101 2).baseLZA =
          (⟨5, 0, [(1, [100])], 1⟩ : LZAinuse).baseLZA
      ∧ ((⟨5, 0, [(1, [100])], 1⟩ : LZAinuse).update 1 101 2).mtime = 2
      ∧ ((⟨5, 0, [(1, [100])], 1⟩ : LZAinuse).update 1 101 2).pids.lookup 1 =
          some ((((⟨5, 0, [(1, [100])], 1⟩ : LZAinuse).pids.lookup 1).getD [])
            ++ [101])
      ∧ (∀ q, q ≠ 1 →
          ((⟨5, 0, [(1, [100])], 1⟩ : LZAinuse).update 1 101 2).pids.lookup q =
            (⟨5, 0, [(1, [100])], 1⟩ : LZAinuse).pids.lookup q) :=
  C10_cache_hit_frame descSt4 5 1 101 2 ⟨5, 0, [(1, [100])], 1⟩
    (by decide) (by decide) (by decide)

/-! ### C4: eviction victim selection -/

theorem LZAinuse.lt_irrefl (a : LZAinuse) : a.lt a = false := by
  simp [LZAinuse.lt]

theorem LZAinuse.lt_trans (a b c : LZAinuse) (hab : a.lt b = true)
    (hbc : b.lt c = true) : a.lt c = true := by
  simp only [LZAinuse.lt, Bool.and_eq_true, decide_eq_true_eq] at hab hbc ⊢
  exact ⟨Nat.lt_trans hab.1 hbc.1, Nat.lt_trans hab.2 hbc.2⟩

theorem pyMinFold_cons (cur x : LZAinuse) (xs : List LZAinuse) :
    pyMinFold cur (x :: xs) = pyMinFold (if x.lt cur then x else cur) xs := rfl

theorem pyMinFold_mem (l : List LZAinuse) : ∀ cur : LZAinuse,
    pyMinFold cur l ∈ cur :: l := by
  induction l with
  | nil => intro cur; simp [pyMinFold]
  | cons x xs ih =>
      intro cur
      rw [pyMinFold_cons]
      by_cases hx : LZAinuse.lt x cur = true
      · rw [if_pos hx]
        have := ih x
        simp only [List.mem_cons] at this ⊢
        tauto
      · rw [if_neg hx]
        have := ih cur
        simp only [List.mem_cons] at this ⊢
        tauto

theorem pyMinFold_le_cur (l : List LZAinuse) : ∀ cur : LZAinuse,
    pyMinFold cur l = cur ∨ (pyMinFold cur l).lt cur = true := by
  induction l with
  | nil => intro cur; exact Or.inl rfl
  | cons x xs ih =>
      intro cur
      rw [pyMinFold_cons]
      by_cases hx : LZAinuse.lt x cur = true
      · rw [if_pos hx]
        rcases ih x with h | h
        · rw [h]; exact Or.inr hx
        · exact Or.inr (LZAinuse.lt_trans _ _ _ h hx)
      · rw [if_neg hx]
        exact ih cur

theorem pyMinFold_not_lt (l : List LZAinuse) : ∀ cur : LZAinuse,
    ∀ x ∈ cur :: l, ¬ (x.lt (pyMinFold cur l) = true) := by
  induction l with
  | nil =>
      intro cur x hx
      have hxc : x = cur := by simpa using hx
      subst hxc
      simp [pyMinFold, LZAinuse.lt_irrefl]
  | cons y ys ih =>
      intro cur x hx hlt
      rw [pyMinFold_cons] at hlt
      by_cases hy : LZAinuse.lt y cur = true
      · rw [if_pos hy] at hlt
        rcases List.mem_cons.mp hx with rfl | h1
        · -- x is the old current, and the result sits at or below y,
          -- which is strictly below x
          have hrx : (pyMinFold y ys).lt x = true := by
            rcases pyMinFold_le_cur ys y with h2 | h2
            · rw [h2]; exact hy
            · exact LZAinuse.lt_trans _ _ _ h2 hy
          have hxx := LZAinuse.lt_trans _ _ _ hlt hrx
          rw [LZAinuse.lt_irrefl] at hxx
          exact Bool.false_ne_true hxx
        · exact ih y x h1 hlt
      · rw [if_neg hy] at hlt
        rcases List.mem_cons.mp hx with rfl | h1
        · exact ih x x (List.mem_cons_self x ys) hlt
        · rcases List.mem_cons.mp h1 with rfl | h2
          · -- x = y was rejected against cur, and the result is at or
            -- below cur
            rcases pyMinFold_le_cur ys cur with h3 | h3
            · rw [h3] at hlt; exact hy hlt
            · exact hy (LZAinuse.lt_trans _ _ _ hlt h3)
          · exact ih cur x (List.mem_cons_of_mem cur h2) hlt

/-- C4 counterexample: the claim says the victim minimizes mtime first (ties
broken by fewest mappings).  Starting from the reachable full table
`descSt5` (the chain from `descSt0` is re-verified here), entry 5 has
mtime 2 with 2 mappings and entry 7 has mtime 1 with 3 mappings; `assign`
on the unbound LZA 9 evicts entry 5 even though entry 7 is strictly older,
because the source comparator `_LZAinuse.__lt__` demands BOTH a smaller
mtime and a smaller mapping count before it prefers an entry. -/
theorem C4_eviction_choice_counterexample :
    assign descSt0 5 1 100 1 = .ok (descSt1, none)
    ∧ assign descSt1 7 1 200 1 = .ok (descSt2, none)
    ∧ assign descSt2 7 1 201 1 = .ok (descSt3, none)
    ∧ assign descSt3 7 1 202 1 = .ok (descSt4, none)
    ∧ assign descSt4 5 1 101 2 = .ok (descSt5, none)
    ∧ assign descSt5 9 2 300 3 =
        .ok (descSt5, some { evictLZA := ⟨5, 0, [(1, [100, 101])], 2⟩,
                             newLZA := ⟨9, 0, [(2, [300])], 3⟩ })
    ∧ (7, (⟨7, 1, [(1, [200, 201, 202])], 1⟩ : LZAinuse)) ∈ descSt5.descriptors
    ∧ (⟨7, 1, [(1, [200, 201, 202])], 1⟩ : LZAinuse).mtime
        < (⟨5, 0, [(1, [100, 101])], 2⟩ : LZAinuse).mtime := by
  refine ⟨rfl, rfl, rfl, rfl, rfl, rfl, by simp [descSt5], by decide⟩

/-- C4 as amended: when `assign` runs with `baseLZA` unbound and no free
aperture index, it returns an eviction record giving the victim entry and
the replacement entry built on the victim's index, WITHOUT touching the
table or issuing a hardware descriptor write; the victim is the minimum of
the bound entries under the partial comparator of the source (strictly
smaller mtime AND strictly smaller total mapping count), i.e. it is chosen
so that no bound entry is strictly older AND strictly smaller in mapping
count than it — not the (mtime, mappings)-lexicographic minimum the spec
describes. -/
theorem C4_eviction_choice_amended (st : DescState) (b p v now : Nat)
    (h20 : b < 2 ^ 20) (hcons : st.consistent = true)
    (hmiss : st.descriptors.lookup b = none)
    (hfull : st.available = [])
    (hne : st.descriptors ≠ []) :
    ∃ ev : Eviction,
      assign st b p v now = .ok (st, some ev)
      ∧ ev.evictLZA ∈ st.descriptors.map Prod.snd
      ∧ (∀ x ∈ st.descriptors.map Prod.snd,
          ¬ (x.mtime < ev.evictLZA.mtime ∧ x.mappings < ev.evictLZA.mappings))
      ∧ ev.newLZA = LZAinuse.init b ev.evictLZA.index p v now := by
  cases hd : st.descriptors with
  | nil => exact absurd hd hne
  | cons d ds =>
      refine ⟨{ evictLZA := pyMinFold d.2 (ds.map Prod.snd),
                newLZA := LZAinuse.init b
                  (pyMinFold d.2 (ds.map Prod.snd)).index p v now }, ?_, ?_, ?_, rfl⟩
      · unfold assign
        rw [if_pos h20, if_pos hcons, hmiss, hfull, hd]
      · simpa using pyMinFold_mem (ds.map Prod.snd) d.2
      · intro x hx hcontra
        have hlt : x.lt (pyMinFold d.2 (ds.map Prod.snd)) = true := by
          simp [LZAinuse.lt, hcontra.1, hcontra.2]
        exact pyMinFold_not_lt (ds.map Prod.snd) d.2 x (by simpa using hx) hlt

/-- Witness for C4 as amended, at the concrete full table `descSt5` with
the unbound LZA 9. -/
theorem C4_eviction_choice_amended_witness :
    ∃ ev : Eviction,
      assign descSt5 9 2 300 3 = .ok (descSt5, some ev)
      ∧ ev.evictLZA ∈ descSt5.descriptors.map Prod.snd
      ∧ (∀ x ∈ descSt5.descriptors.map Prod.snd,
          ¬ (x.mtime < ev.evictLZA.mtime ∧ x.mappings < ev.evictLZA.mappings))
      ∧ ev.newLZA = LZAinuse.init 9 ev.evictLZA.index 2 300 3 :=
  C4_eviction_choice_amended descSt5 9 2 300 3 (by decide) (by decide)
    (by decide) (by decide) (by decide)

/-! ### Float model lemmas (for C8) -/

theorem log2fuel_spec : ∀ (fuel n : Nat), 1 ≤ n → n ≤ fuel →
    2 ^ log2fuel fuel n ≤ n ∧ n < 2 ^ (log2fuel fuel n + 1) := by
  intro fuel
  induction fuel with
  | zero => intro n h1 h2; omega
  | succ f ih =>
      intro n h1 h2
      by_cases h2n : 2 ≤ n
      · have hrec : log2fuel (f + 1) n = log2fuel f (n / 2) + 1 := by
          simp [log2fuel, h2n]
        have hd1 : 1 ≤ n / 2 := by omega
        have hd2 : n / 2 ≤ f := by omega
        obtain ⟨hl, hr⟩ := ih (n / 2) hd1 hd2
        constructor
        · rw [hrec, pow_succ]
          calc 2 ^ log2fuel f (n / 2) * 2 ≤ n / 2 * 2 := by omega
            _ ≤ n := by omega
        · rw [hrec]
          have h4 : n < (n / 2 + 1) * 2 := by omega
          calc n < (n / 2 + 1) * 2 := h4
            _ ≤ 2 ^ (log2fuel f (n / 2) + 1) * 2 :=
                Nat.mul_le_mul_right 2 hr
            _ = 2 ^ (log2fuel f (n / 2) + 1 + 1) := (pow_succ 2 _).symm
      · have hn1 : n = 1 := by omega
        subst hn1
        refine ⟨by simp [log2fuel], by simp [log2fuel]⟩

theorem log2floor_spec (n : Nat) (h1 : 1 ≤ n) :
    2 ^ log2floor n ≤ n ∧ n < 2 ^ (log2floor n + 1) :=
  log2fuel_spec n n h1 (Nat.le_refl n)

theorem log2floor_pow2 (b : Nat) : log2floor (2 ^ b) = b := by
  obtain ⟨hl, hr⟩ := log2floor_spec (2 ^ b) (Nat.one_le_two_pow)
  have h1 : log2floor (2 ^ b) ≤ b :=
    (Nat.pow_le_pow_iff_right (by omega)).mp hl
  have h2 : b < log2floor (2 ^ b) + 1 :=
    (Nat.pow_lt_pow_iff_right (by omega)).mp hr
  omega

theorem mulPow2_shape (q : PosFrac) (z : Int) :
    ∃ P Q : Nat, mulPow2 q z = ⟨q.num * 2 ^ P, q.den * 2 ^ Q⟩ ∧
      (P : Int) - (Q : Int) = z := by
  by_cases hz : 0 ≤ z
  · exact ⟨z.toNat, 0, by simp [mulPow2, hz], by simp [Int.toNat_of_nonneg hz]⟩
  · refine ⟨0, (-z).toNat, by simp [mulPow2, hz], ?_⟩
    have : (0 : Int) ≤ -z := by omega
    simp [Int.toNat_of_nonneg this]

theorem ceil_char_le (a b : Nat) (hb : 0 < b) : a ≤ ((a + b - 1) / b) * b := by
  have h1 : (a + b - 1) / b < (a + b - 1) / b + 1 := Nat.lt_succ_self _
  have h2 : a + b - 1 < ((a + b - 1) / b + 1) * b :=
    (Nat.div_lt_iff_lt_mul hb).mp h1
  have h3 : ((a + b - 1) / b + 1) * b = (a + b - 1) / b * b + b := by ring
  rw [h3] at h2
  omega

theorem ceil_char_lt (a b : Nat) (hb : 0 < b) : ((a + b - 1) / b) * b < a + b := by
  have := Nat.div_mul_le_self (a + b - 1) b
  omega

theorem ceil_char_unique (a b k : Nat) (hb : 0 < b) (h1 : a ≤ k * b)
    (h2 : k * b < a + b) : k = (a + b - 1) / b := by
  have hle := ceil_char_le a b hb
  have hlt := ceil_char_lt a b hb
  rcases Nat.lt_trichotomy k ((a + b - 1) / b) with h | h | h
  · exfalso
    have : k + 1 ≤ (a + b - 1) / b := h
    have : (k + 1) * b ≤ ((a + b - 1) / b) * b := Nat.mul_le_mul_right b this
    nlinarith
  · exact h
  · exfalso
    have : (a + b - 1) / b + 1 ≤ k := h
    have : ((a + b - 1) / b + 1) * b ≤ k * b := Nat.mul_le_mul_right b this
    nlinarith

theorem ceil_eq_of_cross (a b c d : Nat) (hb : 0 < b) (hd : 0 < d)
    (hcross : a * d = c * b) : (a + b - 1) / b = (c + d - 1) / d := by
  have hle := ceil_char_le a b hb
  have hlt := ceil_char_lt a b hb
  refine ceil_char_unique c d ((a + b - 1) / b) hd ?_ ?_
  · have h1 : a * d ≤ ((a + b - 1) / b) * b * d := Nat.mul_le_mul_right d hle
    rw [hcross] at h1
    have h2 : ((a + b - 1) / b) * b * d = ((a + b - 1) / b) * d * b := by ring
    rw [h2] at h1
    exact Nat.le_of_mul_le_mul_right h1 hb
  · have h1 : ((a + b - 1) / b) * b * d < (a + b) * d :=
      (Nat.mul_lt_mul_right hd).mpr hlt
    have h2 : (a + b) * d = a * d + b * d := by ring
    rw [h2, hcross] at h1
    have h3 : ((a + b - 1) / b) * b * d = ((a + b - 1) / b) * d * b := by ring
    rw [h3] at h1
    have h4 : c * b + b * d = (c + d) * b := by ring
    rw [h4] at h1
    exact Nat.lt_of_mul_lt_mul_right h1

/-- Tail of the rounding once the scaled value sits in `[2 ^ 52, 2 ^ 53)`:
for a dyadic input with a 53-bit significand the scaled value is an
integer, so rounding returns it unchanged (up to representation). -/
theorem round_tail_exact (m A B Pr Qr : Nat) (e : Int) (hm1 : 1 ≤ m)
    (hm2 : m ≤ 2 ^ 53) (hPQ : (Pr : Int) - (Qr : Int) = -e)
    (hlow : 2 ^ 52 * (2 ^ B * 2 ^ Qr) ≤ m * 2 ^ A * 2 ^ Pr) :
    ∃ N2 D2 : Nat,
      mulPow2 ⟨(if 2 * (m * 2 ^ A * 2 ^ Pr % (2 ^ B * 2 ^ Qr)) <
                    2 ^ B * 2 ^ Qr
                then m * 2 ^ A * 2 ^ Pr / (2 ^ B * 2 ^ Qr)
                else if 2 ^ B * 2 ^ Qr <
                    2 * (m * 2 ^ A * 2 ^ Pr % (2 ^ B * 2 ^ Qr))
                then m * 2 ^ A * 2 ^ Pr / (2 ^ B * 2 ^ Qr) + 1
                else if m * 2 ^ A * 2 ^ Pr / (2 ^ B * 2 ^ Qr) % 2 = 0
                then m * 2 ^ A * 2 ^ Pr / (2 ^ B * 2 ^ Qr)
                else m * 2 ^ A * 2 ^ Pr / (2 ^ B * 2 ^ Qr) + 1), 1⟩ e =
        ⟨N2, 2 ^ D2⟩
      ∧ N2 * 2 ^ B = m * 2 ^ A * 2 ^ D2 := by
  have hdvd : (2 ^ B * 2 ^ Qr) ∣ (m * 2 ^ A * 2 ^ Pr) := by
    have hform : m * 2 ^ A * 2 ^ Pr = m * 2 ^ (A + Pr) := by
      rw [pow_add]; ring
    have hden : (2 : Nat) ^ B * 2 ^ Qr = 2 ^ (B + Qr) := by rw [pow_add]
    rw [hform, hden]
    by_cases hcmp : B + Qr ≤ A + Pr
    · exact Dvd.dvd.mul_left (pow_dvd_pow 2 hcmp) m
    · -- the significand must be exactly 2 ^ 53 and the deficit exactly 1
      push_neg at hcmp
      have hsplit : 2 ^ (B + Qr) =
          2 ^ (A + Pr) * 2 ^ (B + Qr - (A + Pr)) := by
        rw [← pow_add]
        congr 1
        omega
      have hlow2 : 2 ^ 52 * 2 ^ (B + Qr - (A + Pr)) ≤ m := by
        rw [hform, hden, hsplit] at hlow
        have h1 : 2 ^ 52 * (2 ^ (A + Pr) * 2 ^ (B + Qr - (A + Pr))) =
            (2 ^ 52 * 2 ^ (B + Qr - (A + Pr))) * 2 ^ (A + Pr) := by ring
        rw [h1] at hlow
        exact Nat.le_of_mul_le_mul_right hlow (by positivity)
      have hdelta : B + Qr - (A + Pr) = 1 := by
        have h2 : 2 ^ 52 * 2 ^ (B + Qr - (A + Pr)) ≤ 2 ^ 53 :=
          le_trans hlow2 hm2
        rw [← pow_add] at h2
        have h3 : 52 + (B + Qr - (A + Pr)) ≤ 53 :=
          (Nat.pow_le_pow_iff_right (by omega)).mp h2
        omega
      have hm53 : m = 2 ^ 53 := by
        rw [hdelta] at hlow2
        have : 2 ^ 52 * 2 ^ 1 = 2 ^ 53 := by norm_num
        omega
      have hBQ : B + Qr = A + Pr + 1 := by omega
      rw [hm53, hBQ, ← pow_add]
      exact pow_dvd_pow 2 (by omega)
  have hden_pos : 0 < 2 ^ B * 2 ^ Qr := by positivity
  have hrem : m * 2 ^ A * 2 ^ Pr % (2 ^ B * 2 ^ Qr) = 0 := by
    obtain ⟨c, hc⟩ := hdvd
    rw [hc, Nat.mul_mod_right]
  rw [hrem]
  rw [if_pos (by omega)]
  set fl := m * 2 ^ A * 2 ^ Pr / (2 ^ B * 2 ^ Qr) with hfl
  have hflmul : fl * (2 ^ B * 2 ^ Qr) = m * 2 ^ A * 2 ^ Pr :=
    Nat.div_mul_cancel hdvd
  obtain ⟨Pe, Qe, hshape, hPQe⟩ := mulPow2_shape ⟨fl, 1⟩ e
  refine ⟨fl * 2 ^ Pe, Qe, ?_, ?_⟩
  · rw [hshape]
    simp
  · -- cross value equality through the exponent bookkeeping
    have hexp : Pe + Pr = Qe + Qr := by omega
    have hcancel : fl * 2 ^ Pe * 2 ^ B * 2 ^ Qr =
        m * 2 ^ A * 2 ^ Qe * 2 ^ Qr := by
      calc fl * 2 ^ Pe * 2 ^ B * 2 ^ Qr
          = fl * (2 ^ B * 2 ^ Qr) * 2 ^ Pe := by ring
        _ = m * 2 ^ A * 2 ^ Pr * 2 ^ Pe := by rw [hflmul]
        _ = m * 2 ^ A * 2 ^ (Pr + Pe) := by rw [pow_add]; ring
        _ = m * 2 ^ A * 2 ^ (Qe + Qr) := by
            have hpe : Pr + Pe = Qe + Qr := by omega
            rw [hpe]
        _ = m * 2 ^ A * 2 ^ Qe * 2 ^ Qr := by rw [pow_add]; ring
    exact Nat.eq_of_mul_eq_mul_right (by positivity) hcancel

/-- Core exactness of the binary64 rounding on dyadic inputs: a value
`m * 2 ^ A / 2 ^ B` whose significand `m` fits in 53 bits rounds to itself
(under a possibly different fraction representation with a power-of-two
denominator). -/
theorem rnd53_dyadic (m A B : Nat) (hm1 : 1 ≤ m) (hm2 : m ≤ 2 ^ 53) :
    ∃ N2 D2 : Nat, rnd53 ⟨m * 2 ^ A, 2 ^ B⟩ = ⟨N2, 2 ^ D2⟩ ∧
      N2 * 2 ^ B = m * 2 ^ A * 2 ^ D2 := by
  have hnum1 : 1 ≤ m * 2 ^ A := Nat.mul_pos hm1 (by positivity)
  have hne : ¬ ((⟨m * 2 ^ A, 2 ^ B⟩ : PosFrac).num = 0) := by
    dsimp only
    omega
  obtain ⟨hNl, hNr⟩ := log2floor_spec (m * 2 ^ A) hnum1
  simp only [rnd53]
  rw [if_neg hne]
  rw [log2floor_pow2]
  obtain ⟨P0, Q0, hsh0, hPQ0⟩ := mulPow2_shape ⟨m * 2 ^ A, 2 ^ B⟩
    (-((log2floor (m * 2 ^ A) : Int) - (B : Int) - 52))
  rw [hsh0]
  dsimp only
  by_cases hbr : m * 2 ^ A * 2 ^ P0 < 2 ^ 52 * (2 ^ B * 2 ^ Q0)
  · rw [if_pos hbr]
    obtain ⟨P1, Q1, hsh1, hPQ1⟩ := mulPow2_shape ⟨m * 2 ^ A, 2 ^ B⟩
      (-((log2floor (m * 2 ^ A) : Int) - (B : Int) - 52 - 1))
    rw [hsh1]
    dsimp only
    refine round_tail_exact m A B P1 Q1 _ hm1 hm2 hPQ1 ?_
    have hexp1 : log2floor (m * 2 ^ A) + P1 = 53 + B + Q1 := by omega
    calc 2 ^ 52 * (2 ^ B * 2 ^ Q1) = 2 ^ (52 + B + Q1) := by
          rw [← pow_add, ← pow_add, Nat.add_assoc]
      _ ≤ 2 ^ (log2floor (m * 2 ^ A) + P1) :=
          Nat.pow_le_pow_right (by omega) (by omega)
      _ = 2 ^ log2floor (m * 2 ^ A) * 2 ^ P1 := pow_add 2 _ _
      _ ≤ m * 2 ^ A * 2 ^ P1 := Nat.mul_le_mul_right _ hNl
  · rw [if_neg hbr]
    rw [hsh0]
    dsimp only
    exact round_tail_exact m A B P0 Q0 _ hm1 hm2 hPQ0 (Nat.not_lt.mp hbr)

/-- CPython `float(n)` is exact for naturals up to `2 ^ 53`. -/
theorem float_nat_small (n : Nat) (hn1 : 1 ≤ n) (hn2 : n ≤ 2 ^ 53) :
    ∃ D : Nat, floatOfNat n = ⟨n * 2 ^ D, 2 ^ D⟩ := by
  have h0 : (⟨n, 1⟩ : PosFrac) = ⟨n * 2 ^ 0, 2 ^ 0⟩ := by norm_num
  obtain ⟨N2, D2, heq, hval⟩ := rnd53_dyadic n 0 0 hn1 hn2
  refine ⟨D2, ?_⟩
  rw [floatOfNat, h0, heq]
  have hN2 : N2 = n * 2 ^ D2 := by simpa using hval
  rw [hN2]

/-- CPython `float(2 ** s)` is exact for every power of two. -/
theorem float_pow2 (s : Nat) :
    ∃ C D : Nat, floatOfNat (2 ^ s) = ⟨2 ^ C, 2 ^ D⟩ ∧ C = s + D := by
  have h0 : (⟨2 ^ s, 1⟩ : PosFrac) = ⟨1 * 2 ^ s, 2 ^ 0⟩ := by norm_num
  obtain ⟨N2, D2, heq, hval⟩ := rnd53_dyadic 1 s 0 (by norm_num) (by norm_num)
  refine ⟨s + D2, D2, ?_, rfl⟩
  rw [floatOfNat, h0, heq]
  have hN2 : N2 = 2 ^ (s + D2) := by
    rw [pow_add]
    simpa using hval
  rw [hN2]

/-- `_nbooks` computes the exact mathematical ceiling whenever the byte
count fits in 53 bits and the book size is a power of two. -/
theorem nbooks_pow2_exact (s n : Nat) (hn : n ≤ 2 ^ 53) :
    nbooks (2 ^ s) n = (n + 2 ^ s - 1) / 2 ^ s := by
  rcases Nat.eq_zero_or_pos n with hn0 | hn1
  · subst hn0
    have h1 : nbooks (2 ^ s) 0 = 0 := by
      rw [nbooks]
      have hf : floatOfNat 0 = ⟨0, 1⟩ := rfl
      rw [hf]
      have hd : fdiv ⟨0, 1⟩ (floatOfNat (2 ^ s)) = ⟨0, 1⟩ := by
        simp [fdiv, rnd53]
      rw [hd]
      rfl
    rw [h1]
    have hlt : 2 ^ s - 1 < 2 ^ s := by
      have : (0 : Nat) < 2 ^ s := by positivity
      omega
    rw [Nat.zero_add]
    exact (Nat.div_eq_of_lt hlt).symm
  · obtain ⟨Dx, hx⟩ := float_nat_small n hn1 hn
    obtain ⟨C, Dy, hy, hCs⟩ := float_pow2 s
    rw [nbooks, hx, hy, fdiv]
    dsimp only
    have hform : (⟨n * 2 ^ Dx * 2 ^ Dy, 2 ^ Dx * 2 ^ C⟩ : PosFrac) =
        ⟨n * 2 ^ (Dx + Dy), 2 ^ (Dx + C)⟩ := by
      rw [pow_add, pow_add]
      congr 1
      ring
    rw [hform]
    obtain ⟨N3, D3, heq3, hval3⟩ := rnd53_dyadic n (Dx + Dy) (Dx + C) hn1 hn
    rw [heq3, ceilPos]
    dsimp only
    refine ceil_eq_of_cross N3 (2 ^ D3) n (2 ^ s) (by positivity)
      (by positivity) ?_
    -- cancel the common factor 2 ^ (Dx + Dy) in the cross equation
    have hc : N3 * 2 ^ s * 2 ^ (Dx + Dy) = n * 2 ^ D3 * 2 ^ (Dx + Dy) := by
      calc N3 * 2 ^ s * 2 ^ (Dx + Dy) = N3 * 2 ^ (Dx + C) := by
            rw [hCs, pow_add, pow_add, pow_add]
            ring
        _ = n * 2 ^ (Dx + Dy) * 2 ^ D3 := hval3
        _ = n * 2 ^ D3 * 2 ^ (Dx + Dy) := by ring
    exact Nat.eq_of_mul_eq_mul_right (by positivity) hc

/-- C8 counterexample: with the typical book size of `2 ^ 33` bytes
(8 GiB), `_nbooks (2 ^ 53 + 1)` returns `2 ^ 20` although the exact
mathematical ceiling is `2 ^ 20 + 1` — the conversion `float(nbytes)`
rounds `2 ^ 53 + 1` down to `2 ^ 53` — so `_nbooks` is NOT exact for byte
counts beyond double precision, contrary to the claim.  The second
conjunct shows `2 ^ 20` books do not cover the requested bytes, and the
third states the exact ceiling. -/
theorem C8_nbooks_counterexample :
    nbooks (2 ^ 33) (2 ^ 53 + 1) = 2 ^ 20
    ∧ 2 ^ 20 * 2 ^ 33 < 2 ^ 53 + 1
    ∧ (2 ^ 53 + 1 + (2 ^ 33 - 1)) / 2 ^ 33 = 2 ^ 20 + 1 := by
  refine ⟨?_, by norm_num, ?_⟩
  · set_option maxRecDepth 10000 in decide
  · set_option maxRecDepth 10000 in decide

/-- C8 as amended: `_nbooks` equals the exact mathematical ceiling of
`nbytes / book_size` whenever `nbytes ≤ 2 ^ 53` (exactly representable in
double precision) and the configured book size is a power of two; beyond
`2 ^ 53` the float rounding can lose the exactness.  The last two
conjuncts certify that `(n + 2 ^ s - 1) / 2 ^ s` is the ceiling: it is the
least book count whose bytes cover `n`. -/
theorem C8_nbooks_amended (s n : Nat) (hn : n ≤ 2 ^ 53) :
    nbooks (2 ^ s) n = (n + 2 ^ s - 1) / 2 ^ s
    ∧ n ≤ ((n + 2 ^ s - 1) / 2 ^ s) * 2 ^ s
    ∧ ((n + 2 ^ s - 1) / 2 ^ s) * 2 ^ s < n + 2 ^ s :=
  ⟨nbooks_pow2_exact s n hn, ceil_char_le n (2 ^ s) (by positivity),
    ceil_char_lt n (2 ^ s) (by positivity)⟩

/-- Witness for C8 as amended: 70 books of 8 GiB. -/
theorem C8_nbooks_amended_witness :
    nbooks (2 ^ 33) (70 * 2 ^ 33) = (70 * 2 ^ 33 + 2 ^ 33 - 1) / 2 ^ 33
    ∧ 70 * 2 ^ 33 ≤ ((70 * 2 ^ 33 + 2 ^ 33 - 1) / 2 ^ 33) * 2 ^ 33
    ∧ ((70 * 2 ^ 33 + 2 ^ 33 - 1) / 2 ^ 33) * 2 ^ 33 < 70 * 2 ^ 33 + 2 ^ 33 :=
  C8_nbooks_amended 33 (70 * 2 ^ 33) (by norm_num)

/-! ### Sorting and BOS density machinery (for C2 and C5) -/

theorem insertSortedBy_perm {α : Type} (key : α → Nat) (x : α) :
    ∀ l : List α, (insertSortedBy key x l).Perm (x :: l) := by
  intro l
  induction l with
  | nil => exact List.Perm.refl _
  | cons y ys ih =>
      by_cases hxy : key x < key y
      · simp [insertSortedBy, hxy]
      · simp only [insertSortedBy, if_neg hxy]
        exact (ih.cons y).trans (List.Perm.swap x y ys)

theorem sortBy_perm {α : Type} (key : α → Nat) :
    ∀ l : List α, (sortBy key l).Perm l := by
  intro l
  induction l with
  | nil => exact List.Perm.refl _
  | cons x xs ih =>
      exact (insertSortedBy_perm key x (sortBy key xs)).trans (ih.cons x)

theorem insertSortedBy_sorted {α : Type} (key : α → Nat) (x : α) :
    ∀ l : List α, l.Pairwise (fun a b => key a ≤ key b) →
      (insertSortedBy key x l).Pairwise (fun a b => key a ≤ key b) := by
  intro l
  induction l with
  | nil => intro _; simp [insertSortedBy]
  | cons y ys ih =>
      intro h
      rw [List.pairwise_cons] at h
      by_cases hxy : key x < key y
      · simp only [insertSortedBy, if_pos hxy]
        refine List.Pairwise.cons ?_ (List.Pairwise.cons h.1 h.2)
        intro z hz
        rcases List.mem_cons.mp hz with rfl | hz2
        · exact Nat.le_of_lt hxy
        · exact le_trans (Nat.le_of_lt hxy) (h.1 z hz2)
      · simp only [insertSortedBy, if_neg hxy]
        refine List.Pairwise.cons ?_ (ih h.2)
        intro z hz
        rcases List.mem_cons.mp ((insertSortedBy_perm key x ys).mem_iff.mp hz)
          with rfl | hz2
        · exact Nat.le_of_not_lt hxy
        · exact h.1 z hz2

theorem sortBy_sorted {α : Type} (key : α → Nat) :
    ∀ l : List α, (sortBy key l).Pairwise (fun a b => key a ≤ key b) := by
  intro l
  induction l with
  | nil => simp [sortBy]
  | cons x xs ih => exact insertSortedBy_sorted key x _ ih

theorem nodup_of_length_toFinset (l : List Nat) (h : l.toFinset.card = l.length) :
    l.Nodup := by
  rw [List.card_toFinset] at h
  have hsub := List.dedup_sublist l
  have := hsub.eq_of_length h
  rw [← this]
  exact List.nodup_dedup l

/-- Python set equality of the seq list with `{1..n}` plus the right
length forces the seq list to be a permutation of `1..n`. -/
theorem seqs_perm_range (seqs : List Nat) (n : Nat)
    (hlen : seqs.length = n) (hset : seqSetEq seqs n = true) :
    seqs.Perm (List.range' 1 n) := by
  simp only [seqSetEq, Bool.and_eq_true, List.all_eq_true,
    decide_eq_true_eq] at hset
  have hfs : seqs.toFinset = (List.range' 1 n).toFinset := by
    ext a
    simp only [List.mem_toFinset]
    exact ⟨fun h => hset.1 a h, fun h => hset.2 a h⟩
  have hrn : (List.range' 1 n).Nodup :=
    (List.pairwise_lt_range' 1 n).imp Nat.ne_of_lt
  have hcard : seqs.toFinset.card = seqs.length := by
    rw [hfs, List.toFinset_card_of_nodup hrn, List.length_range', hlen]
  exact List.perm_of_nodup_nodup_toFinset_eq
    (nodup_of_length_toFinset seqs hcard) hrn hfs

theorem pairwise_lt_of_map_range (l : List TMBos) (s n : Nat)
    (h : l.map TMBos.seq_num = List.range' s n) :
    l.Pairwise (fun a b => a.seq_num < b.seq_num) := by
  have := List.pairwise_lt_range' s n
  rw [← h] at this
  exact List.pairwise_map.mp this

/-- The seq-ordered BOS rows of a shelf are uniquely characterised: any
strictly seq-sorted list that the raw rows permute to is the result. -/
theorem get_bos_eq (db : DB) (sid : Nat) (L : List TMBos)
    (hperm : (db.bos.filter (fun r => decide (r.shelf_id = sid))).Perm L)
    (hsorted : L.Pairwise (fun a b => a.seq_num < b.seq_num)) :
    get_bos_by_shelf_id db sid = L := by
  haveI : IsAntisymm TMBos (fun a b => a.seq_num < b.seq_num) :=
    ⟨fun a b h1 h2 => absurd (Nat.lt_trans h1 h2) (Nat.lt_irrefl _)⟩
  have hp : (get_bos_by_shelf_id db sid).Perm L :=
    (sortBy_perm TMBos.seq_num _).trans hperm
  have hs1 : (get_bos_by_shelf_id db sid).Pairwise
      (fun a b => a.seq_num ≤ b.seq_num) := sortBy_sorted _ _
  have hnodupL : (L.map TMBos.seq_num).Nodup :=
    (List.pairwise_map.mpr (hsorted.imp (fun h => Nat.ne_of_lt h)))
  have hnodup : ((get_bos_by_shelf_id db sid).map TMBos.seq_num).Nodup :=
    (hp.map TMBos.seq_num).nodup_iff.mpr hnodupL
  have hne : (get_bos_by_shelf_id db sid).Pairwise
      (fun a b => a.seq_num ≠ b.seq_num) := List.pairwise_map.mp hnodup
  have hs2 : (get_bos_by_shelf_id db sid).Pairwise
      (fun a b => a.seq_num < b.seq_num) :=
    (hs1.and hne).imp (fun hab => Nat.lt_of_le_of_ne hab.1 hab.2)
  exact List.eq_of_perm_of_sorted hp hs2 hsorted

theorem erase_foldl_perm : ∀ (rows l T : List TMBos), l.Perm (rows ++ T) →
    (rows.foldl List.erase l).Perm T := by
  intro rows
  induction rows with
  | nil => intro l T h; simpa using h
  | cons r rest ih =>
      intro l T h
      have h1 : (l.erase r).Perm ((r :: (rest ++ T)).erase r) :=
        List.Perm.erase r h
      rw [List.erase_cons_head] at h1
      exact ih (l.erase r) T h1

theorem filter_erase_comm (p : TMBos → Bool) (a : TMBos) (hpa : p a = true) :
    ∀ l : List TMBos, (l.erase a).filter p = (l.filter p).erase a := by
  intro l
  induction l with
  | nil => rfl
  | cons x xs ih =>
      by_cases hxa : x = a
      · subst hxa
        rw [List.erase_cons_head]
        rw [List.filter_cons_of_pos hpa, List.erase_cons_head]
      · have hbeq : ¬ (x == a) = true := by
          simp [beq_iff_eq]
          exact hxa
        rw [List.erase_cons_tail hbeq]
        by_cases hpx : p x = true
        · rw [List.filter_cons_of_pos hpx, List.filter_cons_of_pos hpx,
            List.erase_cons_tail hbeq, ih]
        · have hpx2 : p x = false := by
            cases hp2 : p x
            · rfl
            · exact absurd hp2 hpx
          rw [List.filter_cons_of_neg (by simp [hpx2]),
            List.filter_cons_of_neg (by simp [hpx2]), ih]

theorem filter_foldl_erase (p : TMBos → Bool) :
    ∀ (rows l : List TMBos), (∀ r ∈ rows, p r = true) →
      (rows.foldl List.erase l).filter p = rows.foldl List.erase (l.filter p) := by
  intro rows
  induction rows with
  | nil => intro l _; rfl
  | cons r rest ih =>
      intro l hall
      have hr : p r = true := hall r (List.mem_cons_self r rest)
      calc ((r :: rest).foldl List.erase l).filter p
          = (rest.foldl List.erase (l.erase r)).filter p := rfl
        _ = rest.foldl List.erase ((l.erase r).filter p) :=
            ih (l.erase r) (fun x hx => hall x (List.mem_cons_of_mem r hx))
        _ = rest.foldl List.erase ((l.filter p).erase r) := by
            rw [filter_erase_comm p r hr]

/-! ### Engine command inversion lemmas -/

theorem cmd_get_shelf_inv (db : DB) (name : String) (sid : Nat)
    (matchId : Bool) (shelf : TMShelf)
    (h : cmd_get_shelf db name sid matchId = .ok shelf) :
    nbooks db.book_size_bytes shelf.size_bytes = shelf.book_count := by
  unfold cmd_get_shelf at h
  split at h
  · exact absurd h (by simp)
  · split at h
    · cases h
      assumption
    · exact absurd h (by simp)

theorem list_shelf_books_inv (db : DB) (shelf : TMShelf) (bos : List TMBos)
    (h : list_shelf_books db shelf = .ok bos) :
    bos = get_bos_by_shelf_id db shelf.id ∧ bos.length = shelf.book_count := by
  simp only [list_shelf_books] at h
  split at h
  · exact absurd h (by simp)
  · split at h
    · split at h
      · cases h
        exact ⟨rfl, by assumption⟩
      · exact absurd h (by simp)
    · exact absurd h (by simp)

theorem find_modifyBook (id j : Nat) (a : Alloc) : ∀ books : List TMBook,
    (modifyBookAlloc books id a).find? (fun b => decide (b.id = j)) =
      (books.find? (fun b => decide (b.id = j))).map
        (fun bk => if bk.id = id then { bk with allocated := a } else bk) := by
  intro books
  induction books with
  | nil => rfl
  | cons x xs ih =>
      have hid : (if x.id = id then { x with allocated := a } else x).id
          = x.id := by
        by_cases hxid : x.id = id <;> simp [hxid]
      rw [modifyBookAlloc, List.map_cons, List.find?_cons, List.find?_cons,
        hid]
      cases hd : decide (x.id = j) with
      | true => rfl
      | false => exact ih

theorem listAlloc_modify (books : List TMBook) (id j : Nat) (a : Alloc) :
    ((modifyBookAlloc books id a).find?
        (fun b => decide (b.id = j))).map TMBook.allocated =
      (books.find? (fun b => decide (b.id = j))).map
        (fun bk => if bk.id = id then a else bk.allocated) := by
  rw [find_modifyBook]
  cases books.find? (fun b => decide (b.id = j)) with
  | none => rfl
  | some bk =>
      by_cases hbk : bk.id = id <;> simp [hbk]

theorem set_book_alloc_inv (db : DB) (id : Nat) (t : Alloc) (db2 : DB)
    (bk : TMBook) (h : set_book_alloc db id t = .ok (db2, bk)) :
    ∃ book : TMBook, db.books.find? (fun b => decide (b.id = id)) = some book
      ∧ t = allocNext book.allocated
      ∧ db2 = { db with books := modifyBookAlloc db.books id t } := by
  simp only [set_book_alloc] at h
  split at h
  · exact absurd h (by simp)
  case h_2 book heq =>
    split at h
    case isTrue hlegal =>
      cases h
      refine ⟨book, heq, ?_, rfl⟩
      cases t <;> cases hba : book.allocated <;> rw [hba] at hlegal <;>
        first
        | rfl
        | exact absurd hlegal (by decide)
    case isFalse => exact absurd h (by simp)

theorem newRows_map_seq (sid : Nat) : ∀ (books : List TMBook) (seq : Nat),
    (newRows sid seq books).map TMBos.seq_num =
      List.range' (seq + 1) books.length := by
  intro books
  induction books with
  | nil => intro seq; rfl
  | cons b rest ih =>
      intro seq
      have hr : List.range' (seq + 1) (b :: rest).length =
          (seq + 1) :: List.range' (seq + 1 + 1) rest.length := by
        simp [List.range'
        ]
      rw [newRows, List.map_cons, ih (seq + 1), hr]

theorem newRows_shelf (sid : Nat) : ∀ (books : List TMBook) (seq : Nat),
    ∀ r ∈ newRows sid seq books, r.shelf_id = sid := by
  intro books
  induction books with
  | nil => intro seq r hr; simp [newRows] at hr
  | cons b rest ih =>
      intro seq r hr
      rcases List.mem_cons.mp hr with rfl | hr2
      · rfl
      · exact ih (seq + 1) r hr2

theorem newRows_book (sid : Nat) : ∀ (books : List TMBook) (seq : Nat),
    ∀ r ∈ newRows sid seq books, ∃ b ∈ books, r.book_id = b.id := by
  intro books
  induction books with
  | nil => intro seq r hr; simp [newRows] at hr
  | cons b rest ih =>
      intro seq r hr
      rcases List.mem_cons.mp hr with rfl | hr2
      · exact ⟨b, List.mem_cons_self b rest, rfl⟩
      · obtain ⟨b2, hb2, hid⟩ := ih (seq + 1) r hr2
        exact ⟨b2, List.mem_cons_of_mem b hb2, hid⟩

theorem growLoop_ok : ∀ (books : List TMBook) (db : DB) (sid seq : Nat)
    (db2 : DB), growLoop db sid seq books = .ok db2 →
    db2.bos = db.bos ++ newRows sid seq books
    ∧ db2.shelves = db.shelves
    ∧ db2.book_size_bytes = db.book_size_bytes
    ∧ (∀ j, bookAlloc db j = some .INUSE → bookAlloc db2 j = some .INUSE)
    ∧ (∀ b ∈ books, bookAlloc db b.id = some .FREE
        ∧ bookAlloc db2 b.id = some .INUSE) := by
  intro books
  induction books with
  | nil =>
      intro db sid seq db2 h
      simp only [growLoop] at h
      cases h
      refine ⟨by simp [newRows], rfl, rfl, fun j hj => hj, by simp⟩
  | cons b rest ih =>
      intro db sid seq db2 h
      simp only [growLoop] at h
      split at h
      · exact absurd h (by simp)
      case h_2 dbA bk2 heq =>
        obtain ⟨book, hfind, hnext, hdbA⟩ := set_book_alloc_inv db b.id .INUSE
          dbA bk2 heq
        have hfree : book.allocated = .FREE := by
          cases hba : book.allocated <;> rw [hba] at hnext <;> first
            | rfl
            | exact absurd hnext (by simp [allocNext])
        subst hdbA
        obtain ⟨hbos, hshelves, hbsz, hpres, hbooks⟩ := ih _ sid (seq + 1) db2 h
        have hallocA : ∀ j,
            ((modifyBookAlloc db.books b.id Alloc.INUSE).find?
                (fun x => decide (x.id = j))).map TMBook.allocated =
              (db.books.find? (fun x => decide (x.id = j))).map
                (fun bk => if bk.id = b.id then Alloc.INUSE
                  else bk.allocated) :=
          fun j => listAlloc_modify db.books b.id j .INUSE
        refine ⟨?_, hshelves, hbsz, ?_, ?_⟩
        · rw [hbos]
          simp only [newRows]
          rw [List.append_assoc]
          rfl
        · intro j hj
          refine hpres j ?_
          show ((modifyBookAlloc db.books b.id Alloc.INUSE).find?
            (fun x => decide (x.id = j))).map TMBook.allocated =
            some Alloc.INUSE
          rw [hallocA j]
          have hj2 : (db.books.find? (fun x => decide (x.id = j))).map
              TMBook.allocated = some .INUSE := hj
          cases hf : db.books.find? (fun x => decide (x.id = j)) with
          | none => rw [hf] at hj2; exact absurd hj2 (by simp)
          | some bkj =>
              rw [hf] at hj2
              simp only [Option.map_some'] at hj2 ⊢
              by_cases hbkj : bkj.id = b.id <;> simp [hbkj]
              rw [← Option.some.injEq] at hj2
              simpa using hj2
        · intro b2 hb2
          rcases List.mem_cons.mp hb2 with rfl | hb3
          · have hbid : book.id = b2.id := by
              have := List.find?_some hfind
              simpa using this
            constructor
            · show (db.books.find? (fun x => decide (x.id = b2.id))).map
                TMBook.allocated = some .FREE
              rw [hfind]
              simp [hfree]
            · refine hpres b2.id ?_
              show ((modifyBookAlloc db.books b2.id Alloc.INUSE).find?
                (fun x => decide (x.id = b2.id))).map TMBook.allocated =
                some Alloc.INUSE
              rw [hallocA b2.id, hfind]
              simp [hbid]
          · obtain ⟨hfree2, hinuse2⟩ := hbooks b2 hb3
            refine ⟨?_, hinuse2⟩
            have hfreeA : ((modifyBookAlloc db.books b.id Alloc.INUSE).find?
                (fun x => decide (x.id = b2.id))).map TMBook.allocated =
                some Alloc.FREE := hfree2
            rw [hallocA b2.id] at hfreeA
            show (db.books.find? (fun x => decide (x.id = b2.id))).map
              TMBook.allocated = some .FREE
            cases hf : db.books.find? (fun x => decide (x.id = b2.id)) with
            | none => rw [hf] at hfreeA; exact absurd hfreeA (by simp)
            | some bkj =>
                rw [hf] at hfreeA
                simp only [Option.map_some'] at hfreeA ⊢
                by_cases hbkj : bkj.id = b.id
                · rw [if_pos hbkj] at hfreeA
                  exact absurd hfreeA (by simp)
                · rw [if_neg hbkj] at hfreeA
                  exact hfreeA

theorem shrinkLoop_ok : ∀ (rows : List TMBos) (db db2 : DB),
    shrinkLoop db rows = .ok db2 →
    db2.bos = rows.foldl List.erase db.bos
    ∧ db2.shelves = db.shelves
    ∧ db2.book_size_bytes = db.book_size_bytes
    ∧ (∀ j, bookAlloc db j = some .ZOMBIE → bookAlloc db2 j = some .ZOMBIE)
    ∧ (∀ r ∈ rows, bookAlloc db r.book_id = some .INUSE
        ∧ bookAlloc db2 r.book_id = some .ZOMBIE) := by
  intro rows
  induction rows with
  | nil =>
      intro db db2 h
      simp only [shrinkLoop] at h
      cases h
      exact ⟨rfl, rfl, rfl, fun j hj => hj, by simp⟩
  | cons r rest ih =>
      intro db db2 h
      simp only [shrinkLoop] at h
      split at h
      · exact absurd h (by simp)
      case h_2 db3 bk2 heq =>
        obtain ⟨book, hfind, hnext, hdb3⟩ := set_book_alloc_inv
          { db with bos := db.bos.erase r } r.book_id .ZOMBIE db3 bk2 heq
        have hinuse : book.allocated = .INUSE := by
          cases hba : book.allocated <;> rw [hba] at hnext <;> first
            | rfl
            | exact absurd hnext (by simp [allocNext])
        subst hdb3
        obtain ⟨hbos, hshelves, hbsz, hpres, hrows⟩ := ih _ db2 h
        have hallocA : ∀ j,
            ((modifyBookAlloc db.books r.book_id Alloc.ZOMBIE).find?
                (fun x => decide (x.id = j))).map TMBook.allocated =
              (db.books.find? (fun x => decide (x.id = j))).map
                (fun bk => if bk.id = r.book_id then Alloc.ZOMBIE
                  else bk.allocated) :=
          fun j => listAlloc_modify db.books r.book_id j .ZOMBIE
        refine ⟨?_, hshelves, hbsz, ?_, ?_⟩
        · rw [hbos]
          rfl
        · intro j hj
          refine hpres j ?_
          show ((modifyBookAlloc db.books r.book_id Alloc.ZOMBIE).find?
            (fun x => decide (x.id = j))).map TMBook.allocated =
            some Alloc.ZOMBIE
          rw [hallocA j]
          have hj2 : (db.books.find? (fun x => decide (x.id = j))).map
              TMBook.allocated = some .ZOMBIE := hj
          cases hf : db.books.find? (fun x => decide (x.id = j)) with
          | none => rw [hf] at hj2; exact absurd hj2 (by simp)
          | some bkj =>
              rw [hf] at hj2
              simp only [Option.map_some'] at hj2 ⊢
              by_cases hbkj : bkj.id = r.book_id <;> simp [hbkj]
              rw [← Option.some.injEq] at hj2
              simpa using hj2
        · intro r2 hr2
          rcases List.mem_cons.mp hr2 with rfl | hr3
          · have hbid : book.id = r2.book_id := by
              have := List.find?_some hfind
              simpa using this
            constructor
            · show (db.books.find? (fun x => decide (x.id = r2.book_id))).map
                TMBook.allocated = some .INUSE
              rw [hfind]
              simp [hinuse]
            · refine hpres r2.book_id ?_
              show ((modifyBookAlloc db.books r2.book_id Alloc.ZOMBIE).find?
                (fun x => decide (x.id = r2.book_id))).map TMBook.allocated =
                some Alloc.ZOMBIE
              rw [hallocA r2.book_id, hfind]
              simp [hbid]
          · obtain ⟨hin2, hz2⟩ := hrows r2 hr3
            refine ⟨?_, hz2⟩
            have hinA : ((modifyBookAlloc db.books r.book_id
                Alloc.ZOMBIE).find?
                (fun x => decide (x.id = r2.book_id))).map TMBook.allocated =
                some Alloc.INUSE := hin2
            rw [hallocA r2.book_id] at hinA
            show (db.books.find? (fun x => decide (x.id = r2.book_id))).map
              TMBook.allocated = some .INUSE
            cases hf : db.books.find? (fun x => decide (x.id = r2.book_id)) with
            | none => rw [hf] at hinA; exact absurd hinA (by simp)
            | some bkj =>
                rw [hf] at hinA
                simp only [Option.map_some'] at hinA ⊢
                by_cases hbkj : bkj.id = r.book_id
                · rw [if_pos hbkj] at hinA
                  exact absurd hinA (by simp)
                · rw [if_neg hbkj] at hinA
                  exact hinA

/-- C3: `_set_book_alloc` permits exactly the transitions FREE to IN_USE,
IN_USE to ZOMBIE and ZOMBIE to FREE — the successor along the cycle — and
any other requested transition fails with errno EUCLEAN leaving the store
(and hence the book's state) unchanged.  Every successful step moves the
book to `allocNext` of its old state, so any observed history is a prefix
of the cycle FREE, IN_USE, ZOMBIE, FREE, ... -/
theorem C3_alloc_state_machine (db : DB) (id : Nat) (t : Alloc) (b : TMBook)
    (hb : db.books.find? (fun x => decide (x.id = id)) = some b) :
    (t = allocNext b.allocated →
      set_book_alloc db id t =
        .ok ({ db with books := modifyBookAlloc db.books id t },
             { b with allocated := t }))
    ∧ (t ≠ allocNext b.allocated →
      set_book_alloc db id t = .error (EUCLEAN, db)) := by
  constructor
  · intro ht
    unfold set_book_alloc
    rw [hb]
    cases hba : b.allocated <;> cases t <;>
      simp only [allocNext, hba] at ht ⊢ <;> first
      | rfl
      | exact absurd ht (by simp)
  · intro ht
    unfold set_book_alloc
    rw [hb]
    cases hba : b.allocated <;> cases t <;>
      simp only [allocNext, hba] at ht ⊢ <;> first
      | rfl
      | exact absurd rfl ht

/-- Witness for C3: on a store holding book 1 in FREE state, requesting
IN_USE succeeds with the updated row, requesting anything else fails
EUCLEAN with the store untouched. -/
theorem C3_alloc_state_machine_witness :
    ((.INUSE : Alloc) = allocNext (Alloc.FREE) →
      set_book_alloc ⟨4, [⟨1, 1, 0, .FREE⟩], [], [], []⟩ 1 .INUSE =
        .ok ({ (⟨4, [⟨1, 1, 0, .FREE⟩], [], [], []⟩ : DB) with
                books := modifyBookAlloc [⟨1, 1, 0, .FREE⟩] 1 .INUSE },
             { (⟨1, 1, 0, .FREE⟩ : TMBook) with allocated := .INUSE }))
    ∧ ((.INUSE : Alloc) ≠ allocNext (Alloc.FREE) →
      set_book_alloc ⟨4, [⟨1, 1, 0, .FREE⟩], [], [], []⟩ 1 .INUSE =
        .error (EUCLEAN, ⟨4, [⟨1, 1, 0, .FREE⟩], [], [], []⟩)) :=
  C3_alloc_state_machine ⟨4, [⟨1, 1, 0, .FREE⟩], [], [], []⟩ 1 .INUSE
    ⟨1, 1, 0, .FREE⟩ rfl

/-! ### C9: LFS xattr rules -/

/-- C9: through `xattr_assist`, setting `user.LFS.AllocationPolicy`
succeeds exactly when the value is in the policy enumeration and fails
EINVAL otherwise; setting any other `user.LFS` attribute — including
`AllocationPolicyList` and `Interleave` — fails EINVAL; removing any
`user.LFS` xattr fails EINVAL; and reading `AllocationPolicyList` returns
the comma-joined enumeration. -/
theorem C9_xattr_rules (igs : List Nat) (v x : String) :
    (xattr_assist igs "user.LFS.AllocationPolicy" (some v) true false =
      if v ∈ policyList then .ok ("user.LFS.AllocationPolicy", some v)
      else .error EINVAL)
    ∧ xattr_assist igs "user.LFS.AllocationPolicyList" (some v) true false =
        .error EINVAL
    ∧ xattr_assist igs "user.LFS.Interleave" (some v) true false =
        .error EINVAL
    ∧ (splitDots ("user.LFS." ++ x) = ["user", "LFS", x] →
        x ≠ "AllocationPolicy" →
        xattr_assist igs ("user.LFS." ++ x) (some v) true false =
          .error EINVAL)
    ∧ (splitDots ("user.LFS." ++ x) = ["user", "LFS", x] →
        xattr_assist igs ("user.LFS." ++ x) none false true = .error EINVAL)
    ∧ xattr_assist igs "user.LFS.AllocationPolicyList" none false false =
        .ok ("user.LFS.AllocationPolicyList",
          some "RandomBooks,LocalNode,Nearest,LZAascending,LZAdescending") := by
  refine ⟨rfl, rfl, rfl, ?_, ?_, rfl⟩
  · intro hs hx
    simp only [xattr_assist, hs]
    simp only [List.get?]
    rw [if_neg hx]
    simp
  · intro hs
    simp only [xattr_assist, hs]
    simp only [List.get?]
    simp

/-- Witness for C9 at the concrete attribute `user.LFS.Stuff` and value
`Bogus`. -/
theorem C9_xattr_rules_witness :
    (xattr_assist [] "user.LFS.AllocationPolicy" (some "Bogus") true false =
      if "Bogus" ∈ policyList then
        .ok ("user.LFS.AllocationPolicy", some "Bogus")
      else .error EINVAL)
    ∧ xattr_assist [] "user.LFS.AllocationPolicyList" (some "Bogus") true
        false = .error EINVAL
    ∧ xattr_assist [] "user.LFS.Interleave" (some "Bogus") true false =
        .error EINVAL
    ∧ xattr_assist [] "user.LFS.Stuff" (some "Bogus") true false =
        .error EINVAL
    ∧ xattr_assist [] "user.LFS.Stuff" none false true = .error EINVAL
    ∧ xattr_assist [] "user.LFS.AllocationPolicyList" none false false =
        .ok ("user.LFS.AllocationPolicyList",
          some "RandomBooks,LocalNode,Nearest,LZAascending,LZAdescending") :=
  have h := C9_xattr_rules [] "Bogus" "Stuff"
  ⟨h.1, h.2.1, h.2.2.1, h.2.2.2.1 (by decide) (by decide),
    h.2.2.2.2.1 (by decide), h.2.2.2.2.2⟩

theorem cmd_get_shelf_id (db : DB) (name : String) (sid : Nat)
    (shelf : TMShelf) (h : cmd_get_shelf db name sid true = .ok shelf) :
    shelf.id = sid := by
  unfold cmd_get_shelf at h
  split at h
  · exact absurd h (by simp)
  case h_2 s heq =>
    have hfound := List.find?_some heq
    simp only [decide_eq_true_eq] at hfound
    rcases hfound.2 with hf | hf
    · exact absurd hf (by simp)
    · split at h
      · cases h
        exact hf
      · exact absurd h (by simp)

/-- The raw BOS rows of a shelf permute to their seq-ordered listing. -/
theorem get_bos_filter_perm (db : DB) (sid : Nat) :
    (db.bos.filter (fun r => decide (r.shelf_id = sid))).Perm
      (get_bos_by_shelf_id db sid) :=
  (sortBy_perm TMBos.seq_num _).symm

theorem mem_get_bos_shelf (db : DB) (sid : Nat) (r : TMBos)
    (hr : r ∈ get_bos_by_shelf_id db sid) : r.shelf_id = sid := by
  have hr2 := (get_bos_filter_perm db sid).mem_iff.mpr hr
  have := (List.mem_filter.mp hr2).2
  simpa using this

/-- The engine's own checks force the BOS rows of a shelf into the dense
seq pattern `1..book_count`. -/
theorem pre_density (db : DB) (sid n : Nat) (bos : List TMBos)
    (hbos : bos = get_bos_by_shelf_id db sid)
    (hlen : bos.length = n)
    (hseq : bos = [] ∨ seqSetEq (bos.map TMBos.seq_num) n = true) :
    bos.map TMBos.seq_num = List.range' 1 n := by
  rcases hseq with rfl | hset
  · simp at hlen
    subst hlen
    rfl
  · have hsorted : bos.Pairwise (fun a b => a.seq_num ≤ b.seq_num) := by
      rw [hbos]
      exact sortBy_sorted _ _
    have hperm := seqs_perm_range (bos.map TMBos.seq_num) n
      (by simpa using hlen) hset
    haveI : IsAntisymm Nat (fun a b => a ≤ b) := ⟨fun a b => Nat.le_antisymm⟩
    have h1 : (bos.map TMBos.seq_num).Pairwise (fun a b : Nat => a ≤ b) :=
      List.pairwise_map.mpr hsorted
    have h2 : (List.range' 1 n).Pairwise (fun a b : Nat => a ≤ b) :=
      (List.pairwise_lt_range' 1 n).imp Nat.le_of_lt
    exact List.eq_of_perm_of_sorted hperm h1 h2

/-- C5: after a successful `cmd_resize_shelf` the surviving BOS rows of
the shelf carry exactly the seq_nums `1..book_count` and their number is
`book_count`; a grow leaves the old rows as the prefix and appends rows
whose books went FREE to IN_USE, and a shrink keeps exactly the first
`book_count` rows of the seq-ordered listing, the popped tail rows'
books going IN_USE to ZOMBIE. -/
theorem C5_bos_density (db : DB) (name : String) (sid new_size node : Nat)
    (db2 : DB) (shelf2 : TMShelf)
    (h : cmd_resize_shelf db name sid new_size node = .ok (db2, shelf2)) :
    (get_bos_by_shelf_id db2 sid).map TMBos.seq_num =
      List.range' 1 shelf2.book_count
    ∧ (get_bos_by_shelf_id db2 sid).length = shelf2.book_count
    ∧ ((get_bos_by_shelf_id db sid).length ≤ shelf2.book_count →
        (get_bos_by_shelf_id db2 sid).take
            (get_bos_by_shelf_id db sid).length = get_bos_by_shelf_id db sid
        ∧ ∀ r ∈ (get_bos_by_shelf_id db2 sid).drop
            (get_bos_by_shelf_id db sid).length,
            bookAlloc db r.book_id = some .FREE
            ∧ bookAlloc db2 r.book_id = some .INUSE)
    ∧ (shelf2.book_count ≤ (get_bos_by_shelf_id db sid).length →
        get_bos_by_shelf_id db2 sid =
          (get_bos_by_shelf_id db sid).take shelf2.book_count
        ∧ ∀ r ∈ (get_bos_by_shelf_id db sid).drop shelf2.book_count,
            bookAlloc db r.book_id = some .INUSE
            ∧ bookAlloc db2 r.book_id = some .ZOMBIE) := by
  unfold cmd_resize_shelf at h
  split at h
  · exact absurd h (by simp)
  case h_2 shelf hs =>
  split at h
  · exact absurd h (by simp)
  case h_2 bos hb =>
  obtain ⟨hbos, hlen⟩ := list_shelf_books_inv db shelf bos hb
  have hid : shelf.id = sid := cmd_get_shelf_id db name sid shelf hs
  rw [hid] at hbos
  split at h
  · exact absurd h (by simp)
  case isFalse hlen2 =>
  try dsimp only at h
  split at h
  · exact absurd h (by simp)
  case isFalse hseqc =>
  have hseq : bos = [] ∨
      seqSetEq (bos.map TMBos.seq_num) shelf.book_count = true := by
    by_cases hbe : bos = []
    · exact .inl hbe
    · cases hq : seqSetEq (bos.map TMBos.seq_num) shelf.book_count
      · exact absurd ⟨hbe, hq⟩ hseqc
      · exact .inr rfl
  have hpre : bos.map TMBos.seq_num = List.range' 1 shelf.book_count :=
    pre_density db sid shelf.book_count bos hbos hlen hseq
  split at h
  case isTrue hsz =>
    simp only [Except.ok.injEq, Prod.mk.injEq] at h
    obtain ⟨hdb2, hsh2⟩ := h
    subst hdb2
    subst hsh2
    refine ⟨by rw [← hbos]; exact hpre, by rw [← hbos]; exact hlen, ?_, ?_⟩
    · intro _
      rw [← hbos]
      exact ⟨List.take_length bos, by simp⟩
    · intro _
      rw [← hbos, ← hlen, List.take_length]
      exact ⟨rfl, by simp⟩
  case isFalse hsz =>
  try dsimp only at h
  split at h
  case isTrue hceq =>
    simp only [Except.ok.injEq, Prod.mk.injEq] at h
    obtain ⟨hdb2, hsh2⟩ := h
    subst hdb2
    subst hsh2
    have hbos2 : get_bos_by_shelf_id
        (modifyShelf db { shelf with size_bytes := new_size }) sid =
        get_bos_by_shelf_id db sid := rfl
    refine ⟨?_, ?_, ?_, ?_⟩
    · rw [hbos2, ← hbos]
      exact hpre
    · rw [hbos2, ← hbos]
      exact hlen
    · intro _
      rw [hbos2, ← hbos]
      exact ⟨List.take_length bos, by simp⟩
    · intro _
      show get_bos_by_shelf_id db sid = _ ∧ _
      rw [← hbos]
      refine ⟨?_, ?_⟩
      · show bos = bos.take shelf.book_count
        rw [← hlen, List.take_length]
      · show ∀ r ∈ bos.drop shelf.book_count, _
        rw [← hlen]
        simp
  case isFalse hcne =>
  split at h
  case isTrue hglt =>
    try dsimp only at h
    split at h
    · exact absurd h (by simp)
    case isFalse hfb =>
    split at h
    · exact absurd h (by simp)
    case h_2 db2x hgl =>
    simp only [Except.ok.injEq, Prod.mk.injEq] at h
    obtain ⟨hdb2, hsh2⟩ := h
    subst hdb2
    subst hsh2
    have hfb2 : (get_book_by_node db node .FREE
        (nbooks db.book_size_bytes new_size - shelf.book_count)).length =
        nbooks db.book_size_bytes new_size - shelf.book_count :=
      not_not.mp hfb
    obtain ⟨hbx, hshx, hszx, hpresx, hbooksx⟩ :=
      growLoop_ok _ db shelf.id shelf.book_count db2x hgl
    have hNmap := newRows_map_seq shelf.id
      (get_book_by_node db node .FREE
        (nbooks db.book_size_bytes new_size - shelf.book_count))
      shelf.book_count
    have hLmap : (bos ++ newRows shelf.id shelf.book_count
        (get_book_by_node db node .FREE
          (nbooks db.book_size_bytes new_size - shelf.book_count))).map
        TMBos.seq_num = List.range' 1 (nbooks db.book_size_bytes new_size)
        := by
      rw [List.map_append, hpre, hNmap, hfb2, Nat.add_comm shelf.book_count 1,
        List.range'_append_1]
      congr 1
      omega
    have hLsorted := pairwise_lt_of_map_range _ 1
      (nbooks db.book_size_bytes new_size) hLmap
    have hNfilter : (newRows shelf.id shelf.book_count
        (get_book_by_node db node .FREE
          (nbooks db.book_size_bytes new_size - shelf.book_count))).filter
        (fun r => decide (r.shelf_id = sid)) = newRows shelf.id
          shelf.book_count (get_book_by_node db node .FREE
          (nbooks db.book_size_bytes new_size - shelf.book_count)) := by
      refine List.filter_eq_self.mpr ?_
      intro r hr
      have := newRows_shelf shelf.id _ shelf.book_count r hr
      simp [this, hid]
    have hperm : (db2x.bos.filter (fun r => decide (r.shelf_id = sid))).Perm
        (bos ++ newRows shelf.id shelf.book_count
          (get_book_by_node db node .FREE
            (nbooks db.book_size_bytes new_size - shelf.book_count))) := by
      rw [hbx, List.filter_append, hNfilter]
      refine List.Perm.append_right _ ?_
      rw [hbos]
      exact get_bos_filter_perm db sid
    have hbos2 : get_bos_by_shelf_id db2x sid = bos ++ newRows shelf.id
        shelf.book_count (get_book_by_node db node .FREE
          (nbooks db.book_size_bytes new_size - shelf.book_count)) :=
      get_bos_eq db2x sid _ hperm hLsorted
    have hbos2' : get_bos_by_shelf_id (modifyShelf db2x
        { shelf with
          size_bytes := new_size
          book_count := nbooks db.book_size_bytes new_size }) sid =
        get_bos_by_shelf_id db2x sid := rfl
    refine ⟨?_, ?_, ?_, ?_⟩
    · rw [hbos2', hbos2]
      exact hLmap
    · rw [hbos2', hbos2]
      have := congrArg List.length hLmap
      simpa using this
    · intro _
      rw [hbos2', hbos2, ← hbos]
      refine ⟨List.take_left bos _, ?_⟩
      rw [List.drop_left]
      intro r hr
      obtain ⟨b, hbmem, hbid⟩ := newRows_book shelf.id _ shelf.book_count
        r hr
      obtain ⟨hF, hI⟩ := hbooksx b hbmem
      rw [hbid]
      exact ⟨hF, hI⟩
    · intro hle
      rw [← hbos] at hle
      exact absurd hle (by simp only [not_le]; omega)
  case isFalse hgle =>
    try dsimp only at h
    split at h
    · exact absurd h (by simp)
    case isFalse hklen =>
    split at h
    · exact absurd h (by simp)
    case h_2 db2x hsl =>
    simp only [Except.ok.injEq, Prod.mk.injEq] at h
    obtain ⟨hdb2, hsh2⟩ := h
    subst hdb2
    subst hsh2
    have hn2le : nbooks db.book_size_bytes new_size < shelf.book_count := by
      omega
    obtain ⟨hbx, hshx, hszx, hpresx, hrowsx⟩ :=
      shrinkLoop_ok _ db db2x hsl
    have hrows_eq : bos.reverse.take
        (shelf.book_count - nbooks db.book_size_bytes new_size) =
        (bos.drop (nbooks db.book_size_bytes new_size)).reverse := by
      rw [List.take_reverse]
      have hix : bos.length -
          (shelf.book_count - nbooks db.book_size_bytes new_size) =
          nbooks db.book_size_bytes new_size := by omega
      rw [hix]
    have hmem_rows : ∀ r ∈ bos.reverse.take
        (shelf.book_count - nbooks db.book_size_bytes new_size), r ∈ bos := by
      intro r hr
      rw [hrows_eq] at hr
      exact List.mem_of_mem_drop (List.mem_reverse.mp hr)
    have hallrows : ∀ r ∈ bos.reverse.take
        (shelf.book_count - nbooks db.book_size_bytes new_size),
        (fun r : TMBos => decide (r.shelf_id = sid)) r = true := by
      intro r hr
      have : r.shelf_id = sid := by
        refine mem_get_bos_shelf db sid r ?_
        rw [← hbos]
        exact hmem_rows r hr
      simp [this]
    have hbossorted : bos.Pairwise (fun a b => a.seq_num < b.seq_num) :=
      pairwise_lt_of_map_range bos 1 shelf.book_count hpre
    have hperm0 : (db.bos.filter
        (fun r => decide (r.shelf_id = sid))).Perm
        (bos.reverse.take
          (shelf.book_count - nbooks db.book_size_bytes new_size) ++
          bos.take (nbooks db.book_size_bytes new_size)) := by
      rw [hrows_eq]
      have h1 : (db.bos.filter (fun r => decide (r.shelf_id = sid))).Perm
          (bos.take (nbooks db.book_size_bytes new_size) ++
            bos.drop (nbooks db.book_size_bytes new_size)) := by
        rw [List.take_append_drop]
        rw [hbos]
        exact get_bos_filter_perm db sid
      refine h1.trans ?_
      refine List.Perm.trans List.perm_append_comm ?_
      exact ((List.reverse_perm _).symm).append_right _
    have hfoldfilter : db2x.bos.filter (fun r => decide (r.shelf_id = sid)) =
        (bos.reverse.take
          (shelf.book_count - nbooks db.book_size_bytes new_size)).foldl
          List.erase (db.bos.filter (fun r => decide (r.shelf_id = sid))) := by
      rw [hbx]
      exact filter_foldl_erase _ _ db.bos hallrows
    have hperm2 : (db2x.bos.filter
        (fun r => decide (r.shelf_id = sid))).Perm
        (bos.take (nbooks db.book_size_bytes new_size)) := by
      rw [hfoldfilter]
      exact erase_foldl_perm _ _ _ hperm0
    have hTsorted : (bos.take
        (nbooks db.book_size_bytes new_size)).Pairwise
        (fun a b => a.seq_num < b.seq_num) :=
      hbossorted.sublist (List.take_sublist _ bos)
    have hbos2 : get_bos_by_shelf_id db2x sid =
        bos.take (nbooks db.book_size_bytes new_size) :=
      get_bos_eq db2x sid _ hperm2 hTsorted
    have hbos2' : get_bos_by_shelf_id (modifyShelf db2x
        { shelf with
          size_bytes := new_size
          book_count := nbooks db.book_size_bytes new_size }) sid =
        get_bos_by_shelf_id db2x sid := rfl
    have hTmap : (bos.take (nbooks db.book_size_bytes new_size)).map
        TMBos.seq_num =
        List.range' 1 (nbooks db.book_size_bytes new_size) := by
      rw [List.map_take, hpre]
      have hsplit : List.range' 1 shelf.book_count =
          List.range' 1 (nbooks db.book_size_bytes new_size) ++
          List.range' (1 + nbooks db.book_size_bytes new_size)
            (shelf.book_count - nbooks db.book_size_bytes new_size) := by
        rw [List.range'_append_1]
        congr 1
        omega
      rw [hsplit]
      exact List.take_left' (by simp)
    refine ⟨?_, ?_, ?_, ?_⟩
    · rw [hbos2', hbos2]
      exact hTmap
    · rw [hbos2', hbos2]
      have := congrArg List.length hTmap
      simpa using this
    · intro hle
      rw [← hbos] at hle
      exact absurd hle (by simp only [not_le]; omega)
    · intro _
      rw [hbos2', hbos2, ← hbos]
      refine ⟨rfl, ?_⟩
      intro r hr
      have hrin : r ∈ bos.reverse.take
          (shelf.book_count - nbooks db.book_size_bytes new_size) := by
        rw [hrows_eq]
        exact List.mem_reverse.mpr hr
      obtain ⟨hIU, hZ⟩ := hrowsx r hrin
      exact ⟨hIU, hZ⟩

/-- C5 witnessed on the rack store: growing the empty shelf to 12 bytes
(3 books) from node 2 yields BOS seq_nums exactly 1, 2, 3. -/
theorem C5_bos_density_witness :
    cmd_resize_shelf dbRack "s" 1 12 2 = .ok (dbRackGrown, ⟨1, "s", 12, 3⟩)
    ∧ (get_bos_by_shelf_id dbRackGrown 1).map TMBos.seq_num =
        List.range' 1 3 :=
  ⟨by set_option maxRecDepth 400000 in decide,
   (C5_bos_density dbRack "s" 1 12 2 dbRackGrown ⟨1, "s", 12, 3⟩
     (by set_option maxRecDepth 400000 in decide)).1⟩

/-- C2: counterexample.  On the rack store the shelf's configured
allocation policy (`user.LFS.AllocationPolicy = LZAascending`) returns the
full delta of 3 books for a grow of 3, yet `cmd_resize_shelf` issued by a
caller on node 1 fails with ENOSPC: the engine draws books from
`get_book_by_node(context.node_id, FREE, delta)` and never consults the
shelf's allocation policy, so the spec's description of the grow path is
wrong.  (The same command from node 2, where the FREE books sit, goes
through.) -/
theorem C2_resize_policy_counterexample :
    policyBooks dbRack id ⟨1, "s", 0, 0⟩ 1 2 3 =
      .ok [⟨11, 2, 1, .FREE⟩, ⟨12, 2, 1, .FREE⟩, ⟨13, 2, 1, .FREE⟩]
    ∧ cmd_resize_shelf dbRack "s" 1 12 1 = .error (ENOSPC, dbRack)
    ∧ cmd_resize_shelf dbRack "s" 1 12 2 =
        .ok (dbRackGrown, ⟨1, "s", 12, 3⟩) := by
  refine ⟨?_, ?_, ?_⟩
  · set_option maxRecDepth 40000 in decide
  · set_option maxRecDepth 100000 in decide
  · set_option maxRecDepth 400000 in decide

/-- C2 (amended): on a grow request the engine takes its books from
`db.get_book_by_node(node_id, FREE, delta)` — the caller's node, not the
shelf's allocation policy; when that query yields fewer than delta books
the command fails with errno ENOSPC and the returned store is the original
one, untouched: book_count unchanged, no BOS row added, no book
transitioned. -/
theorem C2_resize_grow_enospc_amended (db : DB) (name : String)
    (sid new_size node : Nat) (shelf : TMShelf) (bos : List TMBos)
    (hs : cmd_get_shelf db name sid true = .ok shelf)
    (hb : list_shelf_books db shelf = .ok bos)
    (hlen : bos.length = shelf.book_count)
    (hseq : ¬ (bos ≠ [] ∧
      seqSetEq (bos.map TMBos.seq_num) shelf.book_count = false))
    (hsize : new_size ≠ shelf.size_bytes)
    (hgrow : shelf.book_count < nbooks db.book_size_bytes new_size)
    (hshort : (get_book_by_node db node .FREE
        (nbooks db.book_size_bytes new_size - shelf.book_count)).length
      ≠ nbooks db.book_size_bytes new_size - shelf.book_count) :
    cmd_resize_shelf db name sid new_size node = .error (ENOSPC, db) := by
  unfold cmd_resize_shelf
  rw [hs]
  dsimp only
  rw [hb]
  dsimp only
  rw [if_neg (fun hc => hc hlen), if_neg hseq, if_neg hsize,
    if_neg (by omega : ¬ nbooks db.book_size_bytes new_size =
      shelf.book_count), if_pos hgrow, if_pos hshort]

/-- C2 amended, witnessed on the rack store: shelf "s" is empty, a resize
to 12 bytes from node 1 needs 3 books, node 1 has none, and the command
returns ENOSPC with the store unchanged. -/
theorem C2_resize_grow_enospc_amended_witness :
    cmd_get_shelf dbRack "s" 1 true = .ok ⟨1, "s", 0, 0⟩
    ∧ (get_book_by_node dbRack 1 .FREE 3).length = 0
    ∧ cmd_resize_shelf dbRack "s" 1 12 1 = .error (ENOSPC, dbRack) :=
  ⟨by set_option maxRecDepth 40000 in decide,
   by decide,
   C2_resize_grow_enospc_amended dbRack "s" 1 12 1 ⟨1, "s", 0, 0⟩ []
     (by set_option maxRecDepth 40000 in decide)
     (by set_option maxRecDepth 40000 in decide)
     (by decide) (by decide) (by decide)
     (by set_option maxRecDepth 40000 in decide)
     (by set_option maxRecDepth 40000 in decide)⟩

theorem mem_range'_iff (s n m : Nat) :
    m ∈ List.range' s n ↔ s ≤ m ∧ m < s + n := by
  rw [List.mem_range']
  constructor
  · rintro ⟨i, hi, rfl⟩
    omega
  · rintro ⟨h1, h2⟩
    exact ⟨m - s, by omega, by omega⟩

theorem mem_get_books_IG (db : DB) (limit : Nat) (IGs : List Nat)
    (exclude ascending : Bool) (b : TMBook)
    (hb : b ∈ get_books_by_intlv_group db limit IGs exclude ascending) :
    b.allocated = .FREE ∧
      (if exclude then ¬ b.intlv_group ∈ IGs else b.intlv_group ∈ IGs) := by
  unfold get_books_by_intlv_group at hb
  try dsimp only at hb
  have hb2 := List.mem_of_mem_take hb
  have hb3 : b ∈ sortBy TMBook.id (db.books.filter (fun b =>
      decide (b.allocated = .FREE ∧
        (if exclude then ¬ b.intlv_group ∈ IGs
          else b.intlv_group ∈ IGs)))) := by
    cases ascending
    · simpa using hb2
    · simpa using hb2
  have hb4 := (sortBy_perm TMBook.id _).mem_iff.mp hb3
  exact of_decide_eq_true (List.mem_filter.mp hb4).2

theorem nodup_get_books_IG (db : DB) (limit : Nat) (IGs : List Nat)
    (exclude ascending : Bool) (hnd : db.books.Nodup) :
    (get_books_by_intlv_group db limit IGs exclude ascending).Nodup := by
  unfold get_books_by_intlv_group
  have h1 : (db.books.filter (fun b =>
      decide (b.allocated = .FREE ∧
        (if exclude then ¬ b.intlv_group ∈ IGs
          else b.intlv_group ∈ IGs)))).Nodup := hnd.filter _
  have h2 := ((sortBy_perm TMBook.id _).symm).nodup h1
  refine List.Nodup.sublist (List.take_sublist _ _) ?_
  cases ascending
  · simpa using h2
  · simpa using h2

theorem mem_IGs2books (db : DB) (shuf : List TMBook → List TMBook)
    (needed : Nat) (IGs : List Nat) (exclude doShuffle : Bool)
    (hshuf : ∀ l : List TMBook, (shuf l).Perm l) (b : TMBook)
    (hb : b ∈ IGs2books db shuf needed IGs exclude doShuffle) :
    b.allocated = .FREE ∧
      (if exclude then ¬ b.intlv_group ∈ IGs else b.intlv_group ∈ IGs) := by
  unfold IGs2books at hb
  cases doShuffle
  · simp only [Bool.false_eq_true, if_false] at hb
    exact mem_get_books_IG db needed IGs exclude true b
      (List.mem_of_mem_take hb)
  · simp only [if_true] at hb
    exact mem_get_books_IG db 999999 IGs exclude true b
      ((hshuf _).mem_iff.mp (List.mem_of_mem_take hb))

theorem nodup_IGs2books (db : DB) (shuf : List TMBook → List TMBook)
    (needed : Nat) (IGs : List Nat) (exclude doShuffle : Bool)
    (hshuf : ∀ l : List TMBook, (shuf l).Perm l) (hnd : db.books.Nodup) :
    (IGs2books db shuf needed IGs exclude doShuffle).Nodup := by
  unfold IGs2books
  cases doShuffle
  · simp only [Bool.false_eq_true, if_false]
    exact List.Nodup.sublist (List.take_sublist _ _)
      (nodup_get_books_IG db needed IGs exclude true hnd)
  · simp only [if_true]
    exact List.Nodup.sublist (List.take_sublist _ _)
      ((hshuf _).symm.nodup (nodup_get_books_IG db 999999 IGs exclude true
        hnd))

theorem length_IGs2books (db : DB) (shuf : List TMBook → List TMBook)
    (needed : Nat) (IGs : List Nat) (exclude doShuffle : Bool) :
    (IGs2books db shuf needed IGs exclude doShuffle).length ≤ needed := by
  unfold IGs2books
  cases doShuffle
  · simp only [Bool.false_eq_true, if_false]
    exact List.length_take_le _ _
  · simp only [if_true]
    exact List.length_take_le _ _

theorem node_mem_nearestEncNodes (node : Nat) (hnode : 1 ≤ node) :
    node ∈ nearestEncNodes node := by
  unfold nearestEncNodes
  rw [mem_range'_iff]
  omega

theorem mem_nearestLocalBooks (db : DB) (shuf : List TMBook → List TMBook)
    (node needed : Nat)
    (hshuf : ∀ l : List TMBook, (shuf l).Perm l) (b : TMBook)
    (hb : b ∈ nearestLocalBooks db shuf node needed) :
    b.allocated = .FREE ∧ b.intlv_group = node - 1 := by
  have := mem_IGs2books db shuf needed [node - 1] false false hshuf b hb
  simpa using this

theorem mem_nearestEncBooks (db : DB) (shuf : List TMBook → List TMBook)
    (node needed1 : Nat)
    (hshuf : ∀ l : List TMBook, (shuf l).Perm l) (b : TMBook)
    (hb : b ∈ nearestEncBooks db shuf node needed1) :
    b.allocated = .FREE ∧ ∃ n2 ∈ nearestEncNodes node,
      n2 ≠ node ∧ b.intlv_group = n2 - 1 := by
  have h := mem_IGs2books db shuf needed1 _ false true hshuf b hb
  simp only [if_false, Bool.false_eq_true] at h
  refine ⟨h.1, ?_⟩
  have h2 := h.2
  rw [List.mem_map] at h2
  obtain ⟨n2, hn2, hig⟩ := h2
  rw [List.mem_filter] at hn2
  exact ⟨n2, hn2.1, of_decide_eq_true hn2.2, hig.symm⟩

theorem mem_nearestNonencBooks (db : DB) (shuf : List TMBook → List TMBook)
    (node numNodes needed2 : Nat)
    (hshuf : ∀ l : List TMBook, (shuf l).Perm l) (b : TMBook)
    (hb : b ∈ nearestNonencBooks db shuf node numNodes needed2) :
    b.allocated = .FREE ∧ ∃ n2 ∈ List.range' 1 numNodes,
      ¬ n2 ∈ nearestEncNodes node ∧ b.intlv_group = n2 - 1 := by
  have h := mem_IGs2books db shuf needed2 _ false true hshuf b hb
  simp only [if_false, Bool.false_eq_true] at h
  refine ⟨h.1, ?_⟩
  have h2 := h.2
  rw [List.mem_map] at h2
  obtain ⟨n2, hn2, hig⟩ := h2
  rw [List.mem_filter] at hn2
  exact ⟨n2, hn2.1, of_decide_eq_true hn2.2, hig.symm⟩

/-- C7: a Nearest request for `n` books by a caller on `node` returns at
most `n` books, decomposed as local books (caller's own interleave group),
then books of the other nodes of the caller's enclosure
(`enc = (node-1)/10 + 1`, nodes `(enc-1)*10+1 .. (enc-1)*10+10`), then
books of nodes outside that enclosure, with no duplicate book.  `shuf` is
the permutation drawn by `random.shuffle` and the store's book rows are
assumed distinct. -/
theorem C7_nearest_policy (db : DB) (shuf : List TMBook → List TMBook)
    (node numNodes n : Nat) (hnode : 1 ≤ node)
    (hshuf : ∀ l : List TMBook, (shuf l).Perm l)
    (hnd : db.books.Nodup) :
    ∃ lb eb nb : List TMBook,
      policy_Nearest db shuf node numNodes n false = lb ++ eb ++ nb
      ∧ (policy_Nearest db shuf node numNodes n false).length ≤ n
      ∧ (∀ b ∈ lb, b.allocated = .FREE ∧ b.intlv_group = node - 1)
      ∧ (∀ b ∈ eb, b.allocated = .FREE ∧
          ∃ n2 ∈ List.range' (((node - 1) / 10 + 1 - 1) * 10 + 1) 10,
            n2 ≠ node ∧ b.intlv_group = n2 - 1)
      ∧ (∀ b ∈ nb, b.allocated = .FREE ∧
          ∃ n2 ∈ List.range' 1 numNodes,
            ¬ n2 ∈ List.range' (((node - 1) / 10 + 1 - 1) * 10 + 1) 10
            ∧ b.intlv_group = n2 - 1)
      ∧ (policy_Nearest db shuf node numNodes n false).Nodup := by
  have hdef : policy_Nearest db shuf node numNodes n false =
      (if n - (nearestLocalBooks db shuf node n).length = 0 then
        nearestLocalBooks db shuf node n
      else if n - (nearestLocalBooks db shuf node n).length -
          (nearestEncBooks db shuf node
            (n - (nearestLocalBooks db shuf node n).length)).length = 0 then
        nearestLocalBooks db shuf node n ++
          nearestEncBooks db shuf node
            (n - (nearestLocalBooks db shuf node n).length)
      else
        nearestLocalBooks db shuf node n ++
          nearestEncBooks db shuf node
            (n - (nearestLocalBooks db shuf node n).length) ++
          nearestNonencBooks db shuf node numNodes
            (n - (nearestLocalBooks db shuf node n).length -
              (nearestEncBooks db shuf node
                (n - (nearestLocalBooks db shuf node n).length)).length))
      := rfl
  have hLmem := mem_nearestLocalBooks db shuf node n hshuf
  have hLnodup : (nearestLocalBooks db shuf node n).Nodup :=
    nodup_IGs2books db shuf n [node - 1] false false hshuf hnd
  have hLlen : (nearestLocalBooks db shuf node n).length ≤ n :=
    length_IGs2books db shuf n [node - 1] false false
  have hEmem := mem_nearestEncBooks db shuf node
    (n - (nearestLocalBooks db shuf node n).length) hshuf
  have hEnodup : (nearestEncBooks db shuf node
      (n - (nearestLocalBooks db shuf node n).length)).Nodup :=
    nodup_IGs2books db shuf _ _ false true hshuf hnd
  have hElen : (nearestEncBooks db shuf node
      (n - (nearestLocalBooks db shuf node n).length)).length ≤
      n - (nearestLocalBooks db shuf node n).length :=
    length_IGs2books db shuf _ _ false true
  have hNmem := mem_nearestNonencBooks db shuf node numNodes
    (n - (nearestLocalBooks db shuf node n).length -
      (nearestEncBooks db shuf node
        (n - (nearestLocalBooks db shuf node n).length)).length) hshuf
  have hNnodup : (nearestNonencBooks db shuf node numNodes
      (n - (nearestLocalBooks db shuf node n).length -
        (nearestEncBooks db shuf node
          (n - (nearestLocalBooks db shuf node n).length)).length)).Nodup :=
    nodup_IGs2books db shuf _ _ false true hshuf hnd
  have hNlen : (nearestNonencBooks db shuf node numNodes
      (n - (nearestLocalBooks db shuf node n).length -
        (nearestEncBooks db shuf node
          (n - (nearestLocalBooks db shuf node n).length)).length)).length ≤
      n - (nearestLocalBooks db shuf node n).length -
        (nearestEncBooks db shuf node
          (n - (nearestLocalBooks db shuf node n).length)).length :=
    length_IGs2books db shuf _ _ false true
  have hnodein := node_mem_nearestEncNodes node hnode
  have hdisjLE : ∀ b, b ∈ nearestLocalBooks db shuf node n →
      b ∈ nearestEncBooks db shuf node
        (n - (nearestLocalBooks db shuf node n).length) → False := by
    intro b h1 h2
    obtain ⟨-, hig1⟩ := hLmem b h1
    obtain ⟨-, n2, hn2, hne, hig2⟩ := hEmem b h2
    rw [nearestEncNodes, mem_range'_iff] at hn2
    omega
  have hdisjLN : ∀ b, b ∈ nearestLocalBooks db shuf node n →
      b ∈ nearestNonencBooks db shuf node numNodes
        (n - (nearestLocalBooks db shuf node n).length -
          (nearestEncBooks db shuf node
            (n - (nearestLocalBooks db shuf node n).length)).length) →
      False := by
    intro b h1 h2
    obtain ⟨-, hig1⟩ := hLmem b h1
    obtain ⟨-, n2, hn2, hnmem, hig2⟩ := hNmem b h2
    rw [mem_range'_iff] at hn2
    have hn2node : n2 = node := by omega
    rw [hn2node] at hnmem
    exact hnmem hnodein
  have hdisjEN : ∀ b, b ∈ nearestEncBooks db shuf node
        (n - (nearestLocalBooks db shuf node n).length) →
      b ∈ nearestNonencBooks db shuf node numNodes
        (n - (nearestLocalBooks db shuf node n).length -
          (nearestEncBooks db shuf node
            (n - (nearestLocalBooks db shuf node n).length)).length) →
      False := by
    intro b h1 h2
    obtain ⟨-, n2, hn2, hne, hig1⟩ := hEmem b h1
    obtain ⟨-, n3, hn3, hnmem, hig2⟩ := hNmem b h2
    rw [mem_range'_iff] at hn3
    have hmem2 : n2 ∈ nearestEncNodes node := hn2
    rw [nearestEncNodes, mem_range'_iff] at hmem2
    have hn3n2 : n3 = n2 := by omega
    rw [hn3n2] at hnmem
    exact hnmem hn2
  rw [hdef]
  by_cases h1 : n - (nearestLocalBooks db shuf node n).length = 0
  · rw [if_pos h1]
    refine ⟨nearestLocalBooks db shuf node n, [], [], by simp, hLlen,
      fun b hb => hLmem b hb, by simp, by simp, hLnodup⟩
  · rw [if_neg h1]
    by_cases h2 : n - (nearestLocalBooks db shuf node n).length -
        (nearestEncBooks db shuf node
          (n - (nearestLocalBooks db shuf node n).length)).length = 0
    · rw [if_pos h2]
      refine ⟨nearestLocalBooks db shuf node n,
        nearestEncBooks db shuf node
          (n - (nearestLocalBooks db shuf node n).length), [],
        by simp, ?_, fun b hb => hLmem b hb,
        fun b hb => hEmem b hb, by simp, ?_⟩
      · rw [List.length_append]
        omega
      · rw [List.nodup_append]
        exact ⟨hLnodup, hEnodup, fun a ha hb => hdisjLE a ha hb⟩
    · rw [if_neg h2]
      refine ⟨nearestLocalBooks db shuf node n,
        nearestEncBooks db shuf node
          (n - (nearestLocalBooks db shuf node n).length),
        nearestNonencBooks db shuf node numNodes
          (n - (nearestLocalBooks db shuf node n).length -
            (nearestEncBooks db shuf node
              (n - (nearestLocalBooks db shuf node n).length)).length),
        rfl, ?_, fun b hb => hLmem b hb,
        fun b hb => hEmem b hb, fun b hb => hNmem b hb, ?_⟩
      · rw [List.append_assoc, List.length_append, List.length_append]
        omega
      · rw [List.append_assoc, List.nodup_append, List.nodup_append]
        refine ⟨hLnodup, ⟨hEnodup, hNnodup,
          fun a ha hb => hdisjEN a ha hb⟩, ?_⟩
        intro a ha hb
        rcases List.mem_append.mp hb with hb2 | hb2
        · exact hdisjLE a ha hb2
        · exact hdisjLN a ha hb2

/-- C7 witnessed: node 2, enclosure 1, request of 6 books against
`dbNear` with the identity shuffle returns the two local node-2 books,
then the node-1 enclosure book, then the node-11 book — 4 books in
total, no duplicates, never short-circuiting enclosure order. -/
theorem C7_nearest_policy_witness :
    policy_Nearest dbNear id 2 20 6 false =
      [⟨21, 2, 1, .FREE⟩, ⟨22, 2, 1, .FREE⟩, ⟨11, 1, 0, .FREE⟩,
        ⟨111, 11, 10, .FREE⟩]
    ∧ ∃ lb eb nb : List TMBook,
        policy_Nearest dbNear id 2 20 6 false = lb ++ eb ++ nb
        ∧ (policy_Nearest dbNear id 2 20 6 false).length ≤ 6
        ∧ (∀ b ∈ lb, b.allocated = .FREE ∧ b.intlv_group = 2 - 1)
        ∧ (∀ b ∈ eb, b.allocated = .FREE ∧
            ∃ n2 ∈ List.range' (((2 - 1) / 10 + 1 - 1) * 10 + 1) 10,
              n2 ≠ 2 ∧ b.intlv_group = n2 - 1)
        ∧ (∀ b ∈ nb, b.allocated = .FREE ∧
            ∃ n2 ∈ List.range' 1 20,
              ¬ n2 ∈ List.range' (((2 - 1) / 10 + 1 - 1) * 10 + 1) 10
              ∧ b.intlv_group = n2 - 1)
        ∧ (policy_Nearest dbNear id 2 20 6 false).Nodup :=
  ⟨by set_option maxRecDepth 10000 in decide,
   C7_nearest_policy dbNear id 2 20 6 (by decide)
     (fun l => List.Perm.refl l) (by decide)⟩

theorem lexLt_irrefl : ∀ l : List Nat, lexLt l l = false
  | [] => rfl
  | a :: as => by
      rw [lexLt, if_neg (Nat.lt_irrefl a), if_neg (Nat.lt_irrefl a)]
      exact lexLt_irrefl as

theorem lexLt_antisym_eq : ∀ as bs : List Nat, lexLt as bs = false →
    lexLt bs as = false → as = bs
  | [], [], _, _ => rfl
  | [], _ :: _, h1, _ => by simp [lexLt] at h1
  | _ :: _, [], _, h2 => by simp [lexLt] at h2
  | a :: as, b :: bs, h1, h2 => by
      by_cases hab : a < b
      · rw [lexLt, if_pos hab] at h1
        exact absurd h1 (by simp)
      · by_cases hba : b < a
        · rw [lexLt, if_pos hba] at h2
          exact absurd h2 (by simp)
        · have hab2 : a = b := by omega
          rw [lexLt, if_neg hab, if_neg hba] at h1
          rw [lexLt, if_neg hba, if_neg hab] at h2
          rw [hab2, lexLt_antisym_eq as bs h1 h2]

theorem lexLt_trans : ∀ as bs cs : List Nat, lexLt as bs = true →
    lexLt bs cs = true → lexLt as cs = true
  | [], bs, cs, _, h2 => by
      cases cs with
      | cons c cs2 => rfl
      | nil =>
          cases bs with
          | nil => exact h2
          | cons b bs2 => exact absurd h2 (by simp [lexLt])
  | _ :: _, [], _, h1, _ => by simp [lexLt] at h1
  | _ :: _, _ :: _, [], _, h2 => by simp [lexLt] at h2
  | a :: as, b :: bs, c :: cs, h1, h2 => by
      rw [lexLt] at h1 h2 ⊢
      by_cases hab : a < b <;> by_cases hbc : b < c
      · rw [if_pos (show a < c by omega)]
      · rw [if_neg hbc] at h2
        by_cases hcb : c < b
        · rw [if_pos hcb] at h2
          exact absurd h2 (by simp)
        · rw [if_pos (show a < c by omega)]
      · rw [if_neg hab] at h1
        by_cases hba : b < a
        · rw [if_pos hba] at h1
          exact absurd h1 (by simp)
        · rw [if_pos (show a < c by omega)]
      · rw [if_neg hab] at h1
        rw [if_neg hbc] at h2
        by_cases hba : b < a
        · rw [if_pos hba] at h1
          exact absurd h1 (by simp)
        · by_cases hcb : c < b
          · rw [if_pos hcb] at h2
            exact absurd h2 (by simp)
          · rw [if_neg hba] at h1
            rw [if_neg hcb] at h2
            rw [if_neg (show ¬ a < c by omega),
              if_neg (show ¬ c < a by omega)]
            exact lexLt_trans as bs cs h1 h2

theorem digitsFuel_val : ∀ fuel n : Nat, n < fuel →
    (digitsFuel fuel n).foldl (fun acc d => acc * 10 + d) 0 = n := by
  intro fuel
  induction fuel with
  | zero => intro n h; omega
  | succ f ih =>
      intro n h
      rw [digitsFuel]
      by_cases h10 : n < 10
      · rw [if_pos h10]
        simp
      · rw [if_neg h10]
        rw [List.foldl_append, ih (n / 10) (by omega)]
        simp only [List.foldl_cons, List.foldl_nil]
        omega

theorem decDigits_inj (a b : Nat) (h : decDigits a = decDigits b) :
    a = b := by
  have ha := digitsFuel_val (a + 1) a (by omega)
  have hb := digitsFuel_val (b + 1) b (by omega)
  unfold decDigits at h
  rw [h, hb] at ha
  omega

theorem strKeyLt_irrefl (a : Nat) : strKeyLt a a = false := lexLt_irrefl _

theorem strKeyLt_trans (a b c : Nat) (h1 : strKeyLt a b = true)
    (h2 : strKeyLt b c = true) : strKeyLt a c = true :=
  lexLt_trans _ _ _ h1 h2

theorem strKeyLt_antisym_eq (a b : Nat) (h1 : strKeyLt a b = false)
    (h2 : strKeyLt b a = false) : a = b :=
  decDigits_inj a b (lexLt_antisym_eq _ _ h1 h2)

theorem strKeyLt_total (a b : Nat) (hne : a ≠ b) :
    strKeyLt a b = true ∨ strKeyLt b a = true := by
  cases h1 : strKeyLt a b
  · cases h2 : strKeyLt b a
    · exact absurd (strKeyLt_antisym_eq a b h1 h2) hne
    · exact .inr rfl
  · exact .inl rfl

theorem insertByStrKey_perm (x : Nat × Nat) :
    ∀ l : List (Nat × Nat), (insertByStrKey x l).Perm (x :: l)
  | [] => List.Perm.refl _
  | y :: ys => by
      by_cases hxy : strKeyLt x.1 y.1 = true
      · rw [insertByStrKey, if_pos hxy]
      · rw [insertByStrKey, if_neg hxy]
        exact ((insertByStrKey_perm x ys).cons y).trans
          (List.Perm.swap x y ys)

theorem sortByStrKey_perm : ∀ l : List (Nat × Nat),
    (sortByStrKey l).Perm l
  | [] => List.Perm.refl _
  | x :: xs => (insertByStrKey_perm x (sortByStrKey xs)).trans
      ((sortByStrKey_perm xs).cons x)

theorem insertByStrKey_sorted (x : Nat × Nat) : ∀ l : List (Nat × Nat),
    l.Pairwise (fun p q => strKeyLt q.1 p.1 = false) →
    (insertByStrKey x l).Pairwise (fun p q => strKeyLt q.1 p.1 = false) := by
  intro l
  induction l with
  | nil => intro _; exact List.pairwise_singleton _ _
  | cons y ys ih =>
      intro h
      rw [List.pairwise_cons] at h
      by_cases hxy : strKeyLt x.1 y.1 = true
      · rw [insertByStrKey, if_pos hxy]
        refine List.Pairwise.cons ?_ (List.Pairwise.cons h.1 h.2)
        intro z hz
        rcases List.mem_cons.mp hz with rfl | hz2
        · cases hzx : strKeyLt z.1 x.1
          · rfl
          · have hxx := strKeyLt_trans _ _ _ hxy hzx
            have hir := strKeyLt_irrefl x.1
            rw [hxx] at hir
            exact absurd hir (by simp)
        · cases hzx : strKeyLt z.1 x.1
          · rfl
          · have hzy := strKeyLt_trans _ _ _ hzx hxy
            rw [h.1 z hz2] at hzy
            exact absurd hzy (by simp)
      · rw [insertByStrKey, if_neg hxy]
        refine List.Pairwise.cons ?_ (ih h.2)
        intro z hz
        rcases List.mem_cons.mp
            ((insertByStrKey_perm x ys).mem_iff.mp hz) with rfl | hz2
        · cases hne : strKeyLt z.1 y.1
          · rfl
          · exact absurd hne hxy
        · exact h.1 z hz2

theorem sortByStrKey_sorted : ∀ l : List (Nat × Nat),
    (sortByStrKey l).Pairwise (fun p q => strKeyLt q.1 p.1 = false)
  | [] => List.Pairwise.nil
  | x :: xs => insertByStrKey_sorted x _ (sortByStrKey_sorted xs)

theorem igstartGo_lookup (ig bs : Nat) : ∀ (L : List (Nat × Nat))
    (off : Nat), ig ∈ L.map Prod.fst →
    (igstartGo L off bs).lookup ig = some (off +
      ((L.takeWhile (fun p => decide (p.1 ≠ ig))).map
        (fun p => p.2 * bs)).sum) := by
  intro L
  induction L with
  | nil => intro off h; simp at h
  | cons p rest ih =>
      intro off hmem
      obtain ⟨j, c⟩ := p
      by_cases hj : j = ig
      · rw [igstartGo]
        have hlook : (((j, off) :: igstartGo rest (off + c * bs) bs).lookup
            ig) = some off := by
          simp [List.lookup_cons, hj]
        rw [hlook]
        have htw : (((j, c) :: rest).takeWhile
            (fun p => decide (p.1 ≠ ig))) = [] := by
          simp [List.takeWhile_cons, hj]
        rw [htw]
        simp
      · rw [igstartGo]
        have hlook : (((j, off) :: igstartGo rest (off + c * bs) bs).lookup
            ig) = (igstartGo rest (off + c * bs) bs).lookup ig := by
          have hbeq : (ig == j) = false := by
            simp only [beq_eq_false_iff_ne, ne_eq]
            exact Ne.symm hj
          rw [List.lookup_cons, hbeq]
        rw [hlook]
        have hmem2 : ig ∈ rest.map Prod.fst := by
          rcases List.mem_cons.mp hmem with heq | h2
          · exact absurd heq.symm hj
          · exact h2
        rw [ih (off + c * bs) hmem2]
        have htw : (((j, c) :: rest).takeWhile
            (fun p => decide (p.1 ≠ ig))) =
            (j, c) :: rest.takeWhile (fun p => decide (p.1 ≠ ig)) := by
          simp [List.takeWhile_cons, hj]
        rw [htw]
        simp only [List.map_cons, List.sum_cons, Option.some.injEq]
        omega

theorem takeWhile_eq_filter_strLt (ig : Nat) : ∀ S : List (Nat × Nat),
    S.Pairwise (fun p q => strKeyLt q.1 p.1 = false) →
    ig ∈ S.map Prod.fst →
    S.takeWhile (fun p => decide (p.1 ≠ ig)) =
      S.filter (fun p => strKeyLt p.1 ig) := by
  intro S
  induction S with
  | nil => intro _ h; simp at h
  | cons p rest ih =>
      intro hsort hmem
      rw [List.pairwise_cons] at hsort
      by_cases hp : p.1 = ig
      · have htw : ((p :: rest).takeWhile
            (fun q => decide (q.1 ≠ ig))) = [] := by
          simp [List.takeWhile_cons, hp]
        have hfp : strKeyLt p.1 ig = false := by
          rw [hp]
          exact strKeyLt_irrefl ig
        have hfrest : rest.filter (fun q => strKeyLt q.1 ig) = [] := by
          rw [List.filter_eq_nil_iff]
          intro q hq
          have hqp := hsort.1 q hq
          rw [hp] at hqp
          simp [hqp]
        rw [htw, List.filter_cons, if_neg (by simp [hfp]), hfrest]
      · have hmem2 : ig ∈ rest.map Prod.fst := by
          rcases List.mem_cons.mp hmem with heq | h2
          · exact absurd heq.symm hp
          · exact h2
        obtain ⟨q0, hq0mem, hq0key⟩ := List.mem_map.mp hmem2
        have hq0 := hsort.1 q0 hq0mem
        rw [hq0key] at hq0
        have hplt : strKeyLt p.1 ig = true := by
          rcases strKeyLt_total p.1 ig hp with hlt | hlt
          · exact hlt
          · rw [hlt] at hq0
            exact absurd hq0 (by simp)
        have htw : ((p :: rest).takeWhile (fun q => decide (q.1 ≠ ig))) =
            p :: rest.takeWhile (fun q => decide (q.1 ≠ ig)) := by
          simp [List.takeWhile_cons, hp]
        rw [htw, List.filter_cons, if_pos (by simp [hplt]), ih hsort.2 hmem2]

/-- The `_igstart` base offset of a present interleave group is the sum
over the groups whose DECIMAL-STRING key sorts before it. -/
theorem igstart_eq_lex (cfg : ShadowCfg) (ig : Nat)
    (hmem : ig ∈ cfg.bpIG.map Prod.fst) :
    igstart cfg ig = some (igstartLex cfg ig) := by
  unfold igstart
  have hperm := sortByStrKey_perm cfg.bpIG
  have hmemS : ig ∈ (sortByStrKey cfg.bpIG).map Prod.fst :=
    (hperm.map Prod.fst).mem_iff.mpr hmem
  rw [igstartGo_lookup ig cfg.book_size _ 0 hmemS,
    takeWhile_eq_filter_strLt ig _ (sortByStrKey_sorted cfg.bpIG) hmemS]
  have hsum : (((sortByStrKey cfg.bpIG).filter
      (fun p => strKeyLt p.1 ig)).map
        (fun p => p.2 * cfg.book_size)).sum =
      ((cfg.bpIG.filter (fun p => strKeyLt p.1 ig)).map
        (fun p => p.2 * cfg.book_size)).sum :=
    ((hperm.filter _).map _).sum_eq
  rw [hsum]
  unfold igstartLex
  rw [Nat.zero_add]

/-- C1 (amended): when `off // book_size` addresses a BOS entry whose
interleave group is present in `books_per_IG`, `shadow_offset` returns
`ig_start[ig] + book_num * book_size + off mod book_size` where
`ig_start[ig]` sums `books_per_IG[j] * book_size` over the groups `j`
whose DECIMAL-STRING key sorts lexicographically before that of `ig` —
the order of Python's `sorted()` over the JSON string keys, which agrees
with numeric order only while every group number has a single digit; if
the index is out of range, `shadow_offset` returns -1. -/
theorem C1_shadow_offset_amended (cfg : ShadowCfg)
    (bos : List ShadowBosEntry) (off : Nat) :
    (∀ book, bos.get? (off / cfg.book_size) = some book →
      book.intlv_group ∈ cfg.bpIG.map Prod.fst →
      shadow_offset cfg bos off =
        some ((igstartLex cfg book.intlv_group : Int) +
          book.book_num * cfg.book_size + off % cfg.book_size))
    ∧ (bos.get? (off / cfg.book_size) = none →
        shadow_offset cfg bos off = some (-1)) := by
  constructor
  · intro book hget hig
    simp only [shadow_offset, hget, igstart_eq_lex cfg book.intlv_group hig]
  · intro hget
    simp only [shadow_offset, hget]

/-- C1 amended, witnessed on the eleven-group configuration: the book in
group 2 translates to base 3 (groups 0, 1, 10 precede it in string
order), and an offset beyond the single cached BOS entry yields -1. -/
theorem C1_shadow_offset_amended_witness :
    ([⟨2, 0⟩] : List ShadowBosEntry).get? (0 / cfg11.book_size) =
      some ⟨2, 0⟩
    ∧ shadow_offset cfg11 [⟨2, 0⟩] 0 =
        some ((igstartLex cfg11 2 : Int) + 0 * cfg11.book_size +
          0 % cfg11.book_size)
    ∧ shadow_offset cfg11 [⟨2, 0⟩] 99 = some (-1) :=
  ⟨by decide,
   (C1_shadow_offset_amended cfg11 [⟨2, 0⟩] 0).1 ⟨2, 0⟩ (by decide)
     (by decide),
   (C1_shadow_offset_amended cfg11 [⟨2, 0⟩] 99).2 (by decide)⟩

/-- C1: counterexample.  With eleven interleave groups of one book each
and book_size 1, the claim's formula (sum over groups NUMERICALLY smaller
than 2) gives base 2, but the code iterates `sorted()` over decimal
STRING keys (0, 1, 10, 2, ...), placing group 10 before group 2, so
`shadow_offset` returns 3. -/
theorem C1_shadow_offset_counterexample :
    shadow_offset cfg11 [⟨2, 0⟩] 0 = some 3
    ∧ (igstartNumeric cfg11 2 : Int) + 0 * cfg11.book_size +
        0 % cfg11.book_size = 2 :=
  ⟨by set_option maxRecDepth 10000 in decide, by decide⟩

end TmLibrarian
